import Mathlib

/-!
Verification of the AIStore downloader / placement / notification slice.

Shallow embedding of:
  - the HRW placement engine (package meta, appended to src/downloader/download.go):
    Smap.HrwName2T, Smap.HrwHash2T, Smap.HrwTargetList, hrwList.add;
  - the target-side download queue (src/downloader/download.go): queue.put;
  - the proxy broadcast aggregation (src/ais/downloader.go): broadcastDownloadRequest;
  - the range template expansion loop (src/ais/downloader.go): rangeDownloadHandler;
  - the shared data mover (src/transport/bundle/shared_dm.go): sharedDM.Close;
  - the notification fabric (src/ais/notifications.go): listeners, notifs,
    MarshalJSON / UnmarshalJSON, merge, add, done, housekeep, ListenSmapChanged.

Go maps are modelled as association lists (iteration order fixed by the list),
machine integers as Nat, fallible paths as Option / Except.  A Go runtime panic
(out-of-range slice index) is modelled as Option.none.  External library
functions that are not part of this repository (the xxhash string digest and
the xoshiro256 mixing permutation) are taken as parameters, since no claim
depends on their concrete values.
-/

namespace AIStore

/-! ## Data model: nodes and cluster map (package meta) -/

/-- A cluster node (Snode).  The precomputed 64-bit digest is a Nat; the
maintenance / decommission flag abstracts Snode.InMaintOrDecomm (its bit-level
representation lives outside the visible source). -/
structure Snode where
  id : String
  digest : Nat
  maintOrDecomm : Bool
  deriving Repr, DecidableEq

/-- Cluster map (Smap): target map, proxy map, version.  Go maps iterate in an
unspecified order; the embedding fixes one order by using lists of nodes. -/
structure Smap where
  Tmap : List Snode
  Pmap : List Snode
  version : Nat
  deriving Repr, DecidableEq

/-- Modelled from the spec: Smap.CountTargets (its body is not under src/) is
the number of entries of the target map. -/
def Smap.CountTargets (smap : Smap) : Nat := smap.Tmap.length

/-- The HRW score of one candidate node: mix (node digest XOR key digest),
where mix abstracts xoshiro256.Hash (library code outside src/). -/
def hrwScore (mix : Nat → Nat) (keyDigest : Nat) (tsi : Snode) : Nat :=
  mix (Nat.xor tsi.digest keyDigest)

/-- One iteration of the HrwHash2T loop: skip maintenance nodes when asked,
otherwise keep the candidate whenever its score is >= the running maximum. -/
def hrwStep (mix : Nat → Nat) (keyDigest : Nat) (skipMaint : Bool)
    (acc : Nat × Option Snode) (tsi : Snode) : Nat × Option Snode :=
  if skipMaint && tsi.maintOrDecomm then acc
  else
    let cs := hrwScore mix keyDigest tsi
    if acc.1 ≤ cs then (cs, some tsi) else acc

/-- Smap.HrwHash2T: fold the loop over Tmap starting from max = 0, si = nil;
none models the NewErrNoNodes error. -/
def Smap.HrwHash2T (mix : Nat → Nat) (smap : Smap) (digest : Nat)
    (skipMaint : Bool) : Option Snode :=
  (smap.Tmap.foldl (hrwStep mix digest skipMaint) (0, none)).2

/-- Smap.HrwName2T: digest the uname (hash abstracts
xxhash.Checksum64S seeded with MLCG32) and defer to HrwHash2T. -/
def Smap.HrwName2T (mix : Nat → Nat) (hash : String → Nat) (smap : Smap)
    (uname : String) (skipMaint : Bool) : Option Snode :=
  smap.HrwHash2T mix (hash uname) skipMaint

/-- The eligible targets of a cluster map: those not in maintenance or
decommission (the candidates HrwTargetList scores). -/
def Smap.eligibleTargets (smap : Smap) : List Snode :=
  smap.Tmap.filter (fun t => !t.maintOrDecomm)

/-! ## hrwList: top-count selection sorted on the fly (insertion sort) -/

/-- hrwList: the parallel hs / sis arrays are one list of
(weight, node) pairs; n is the requested count. -/
structure hrwList where
  entries : List (Nat × Snode)
  n : Nat
  deriving Repr, DecidableEq

def newHrwList (count : Nat) : hrwList := ⟨[], count⟩

/-- The upward insertion-sort bubble of hrwList.add: the freshly written last
element x swaps upward while the element above it has a strictly smaller
weight, so x settles directly after the deepest element with weight >= x. -/
def insertDesc (x : Nat × Snode) : List (Nat × Snode) → List (Nat × Snode)
  | [] => [x]
  | y :: ys => if x.1 ≤ y.1 then y :: insertDesc x ys else x :: y :: ys

/-- hrwList.add.  When the list is full the candidate is dropped if its weight
is <= the current minimum (the last element), else it overwrites the last
element; otherwise it is appended; in both mutating cases the insertion-sort
bubble restores descending order.  none models the Go panic on hs[l-1] when
l = n = 0 (index out of range). -/
def hrwList.add (hl : hrwList) (weight : Nat) (sinfo : Snode) : Option hrwList :=
  let l := hl.entries.length
  if l = hl.n then
    match hl.entries.getLast? with
    | none => none
    | some e =>
      if weight ≤ e.1 then some hl
      else some { hl with entries := insertDesc (weight, sinfo) hl.entries.dropLast }
  else some { hl with entries := insertDesc (weight, sinfo) hl.entries }

/-- The HrwTargetList error (cmn.ErrNotEnoughTargets with required and
available counts). -/
inductive hrwErr where
  | NotEnoughTargets (required available : Nat)
  deriving Repr, DecidableEq

/-- Smap.HrwTargetList: reject when the cluster has fewer targets than
requested, fold hrwList.add over the non-maintenance targets, and reject when
count differs from the total target count and the resulting slice is short.
The outer Option models the Go panic inside hrwList.add. -/
def Smap.HrwTargetList (mix : Nat → Nat) (hash : String → Nat) (smap : Smap)
    (uname : String) (count : Nat) : Option (Except hrwErr (List Snode)) :=
  if smap.CountTargets < count then
    some (Except.error (.NotEnoughTargets count smap.CountTargets))
  else
    (smap.Tmap.foldlM
        (fun (hl : hrwList) (tsi : Snode) =>
          if tsi.maintOrDecomm then some hl
          else hl.add (hrwScore mix (hash uname) tsi) tsi)
        (newHrwList count)).map (fun hl =>
      if count ≠ smap.CountTargets ∧ (hl.entries.map Prod.snd).length < count then
        Except.error (.NotEnoughTargets count (hl.entries.map Prod.snd).length)
      else Except.ok (hl.entries.map Prod.snd))

/-! ## C1: HRW placement depends only on Tmap -/

/-- C1: for every placement key and fixed skip-maintenance flag, the target
chosen by HrwHash2T (hence HrwName2T) is a deterministic function of the
target map alone: two cluster maps with equal Tmap contents - whatever their
proxy maps and versions - yield the same target. -/
theorem c1_hrw_placement_deterministic (mix : Nat → Nat) (hash : String → Nat)
    (digest : Nat) (uname : String) (skipMaint : Bool) (s1 s2 : Smap)
    (h : s1.Tmap = s2.Tmap) :
    s1.HrwHash2T mix digest skipMaint = s2.HrwHash2T mix digest skipMaint ∧
    s1.HrwName2T mix hash uname skipMaint = s2.HrwName2T mix hash uname skipMaint := by
  unfold Smap.HrwName2T Smap.HrwHash2T
  rw [h]
  exact ⟨rfl, rfl⟩

/-- Witness for C1 at a concrete pair of cluster maps that differ in proxy map
and version but share the target map. -/
theorem c1_witness :
    let t1 : Snode := ⟨"t1", 3, false⟩
    let s1 : Smap := ⟨[t1], [⟨"p1", 7, false⟩], 1⟩
    let s2 : Smap := ⟨[t1], [], 2⟩
    s1.HrwHash2T id 5 true = s2.HrwHash2T id 5 true ∧
    s1.HrwName2T id (fun _ => 5) "b/o" true = s2.HrwName2T id (fun _ => 5) "b/o" true :=
  c1_hrw_placement_deterministic id (fun _ => 5) 5 "b/o" true _ _ rfl

/-! ## Facts about insertDesc and hrwList.add -/

/-- Descending weight order between adjacent entries. -/
def wge (a b : Nat × Snode) : Prop := b.1 ≤ a.1

theorem mem_insertDesc (x a : Nat × Snode) (l : List (Nat × Snode)) :
    a ∈ insertDesc x l ↔ a = x ∨ a ∈ l := by
  induction l with
  | nil => simp [insertDesc]
  | cons y ys ih =>
    by_cases h : x.1 ≤ y.1
    · simp [insertDesc, h, ih]
      tauto
    · simp [insertDesc, h, ih]

theorem length_insertDesc (x : Nat × Snode) (l : List (Nat × Snode)) :
    (insertDesc x l).length = l.length + 1 := by
  induction l with
  | nil => rfl
  | cons y ys ih =>
    by_cases h : x.1 ≤ y.1 <;> simp [insertDesc, h, ih]

theorem pairwise_insertDesc (x : Nat × Snode) (l : List (Nat × Snode))
    (hs : l.Pairwise wge) : (insertDesc x l).Pairwise wge := by
  induction l with
  | nil => simp [insertDesc, List.pairwise_cons]
  | cons y ys ih =>
    rw [List.pairwise_cons] at hs
    by_cases h : x.1 ≤ y.1
    · rw [insertDesc, if_pos h, List.pairwise_cons]
      refine ⟨fun b hb => ?_, ih hs.2⟩
      rcases (mem_insertDesc x b ys).mp hb with rfl | hb
      · exact h
      · exact hs.1 b hb
    · rw [insertDesc, if_neg h, List.pairwise_cons]
      refine ⟨fun b hb => ?_, List.pairwise_cons.mpr hs⟩
      rcases List.mem_cons.mp hb with rfl | hb
      · exact le_of_lt (not_le.mp h)
      · exact le_trans (hs.1 b hb) (le_of_lt (not_le.mp h))

theorem head_insertDesc (x : Nat × Snode) (l : List (Nat × Snode))
    (e : Nat × Snode) (he : (insertDesc x l).head? = some e) :
    x.1 ≤ e.1 ∧ ∀ y, l.head? = some y → y.1 ≤ e.1 := by
  cases l with
  | nil =>
    simp only [insertDesc, List.head?_cons, Option.some.injEq] at he
    subst he
    exact ⟨le_refl _, fun y hy => by simp at hy⟩
  | cons y ys =>
    by_cases h : x.1 ≤ y.1
    · rw [insertDesc, if_pos h] at he
      simp only [List.head?_cons, Option.some.injEq] at he
      subst he
      refine ⟨h, fun y' hy' => ?_⟩
      simp only [List.head?_cons, Option.some.injEq] at hy'
      subst hy'
      exact le_refl _
    · rw [insertDesc, if_neg h] at he
      simp only [List.head?_cons, Option.some.injEq] at he
      subst he
      refine ⟨le_refl _, fun y' hy' => ?_⟩
      simp only [List.head?_cons, Option.some.injEq] at hy'
      subst hy'
      exact le_of_lt (not_le.mp h)

theorem last_le_head (l : List (Nat × Snode)) (hs : l.Pairwise wge)
    (a b : Nat × Snode) (ha : l.getLast? = some a) (hb : l.head? = some b) :
    a.1 ≤ b.1 := by
  cases l with
  | nil => simp at ha
  | cons c t =>
    simp only [List.head?_cons, Option.some.injEq] at hb
    subst hb
    have hmem : a ∈ c :: t := List.mem_of_getLast?_eq_some ha
    rw [List.pairwise_cons] at hs
    rcases List.mem_cons.mp hmem with rfl | hmem
    · exact le_refl _
    · exact hs.1 a hmem

theorem head_dropLast_of_two (l : List (Nat × Snode)) (h : 2 ≤ l.length) :
    l.dropLast.head? = l.head? := by
  match l with
  | [] => simp at h
  | [a] => simp at h
  | a :: b :: t => simp [List.dropLast]

/-! ## The hrwList fold invariant -/

/-- Invariant of the hrwList accumulator after processing the eligible nodes
P: correct capacity, length = min n |P|, every entry carries its own score and
a processed node, entries sorted by descending weight, and the head weight
dominates the score of every processed node. -/
def goodHL (sc : Snode → Nat) (n : Nat) (P : List Snode) (hl : hrwList) : Prop :=
  hl.n = n ∧
  hl.entries.length = min n P.length ∧
  (∀ e ∈ hl.entries, e.1 = sc e.2 ∧ e.2 ∈ P) ∧
  hl.entries.Pairwise wge ∧
  (∀ nd ∈ P, ∀ e, hl.entries.head? = some e → sc nd ≤ e.1)

theorem goodHL_init (sc : Snode → Nat) (n : Nat) : goodHL sc n [] (newHrwList n) := by
  refine ⟨rfl, by simp [newHrwList], by simp [newHrwList], by simp [newHrwList], ?_⟩
  intro nd hnd
  simp at hnd

theorem goodHL_add (sc : Snode → Nat) (n : Nat) (hn : 1 ≤ n) (P : List Snode)
    (hl : hrwList) (nd : Snode) (hg : goodHL sc n P hl) :
    ∃ hl', hl.add (sc nd) nd = some hl' ∧ goodHL sc n (P ++ [nd]) hl' := by
  obtain ⟨hhn, hlen, hmem, hsort, hmax⟩ := hg
  by_cases hfull : hl.entries.length = hl.n
  · -- the list already holds n entries; it is nonempty since n >= 1
    have hne : hl.entries ≠ [] := by
      intro hnil
      rw [hnil] at hfull
      simp [hhn] at hfull
      omega
    obtain ⟨e, he⟩ := Option.isSome_iff_exists.mp (List.getLast?_isSome.mpr hne)
    have hPn : n ≤ P.length := by
      rw [hfull, hhn] at hlen
      omega
    have hminP : min n (P.length + 1) = n := by omega
    obtain ⟨b, hb⟩ : ∃ b, hl.entries.head? = some b := by
      cases hh : hl.entries with
      | nil => exact absurd hh hne
      | cons c t => exact ⟨c, by simp⟩
    by_cases hw : sc nd ≤ e.1
    · -- dropped candidate: the accumulator is unchanged
      refine ⟨hl, ?_, hhn, ?_, ?_, hsort, ?_⟩
      · unfold hrwList.add
        rw [if_pos hfull, he]
        exact if_pos hw
      · rw [hfull, hhn]
        simp only [List.length_append, List.length_cons, List.length_nil]
        omega
      · exact fun x hx => ⟨(hmem x hx).1, List.mem_append_left _ (hmem x hx).2⟩
      · intro x hx f hf
        rcases List.mem_append.mp hx with hx | hx
        · exact hmax x hx f hf
        · have hxnd : x = nd := by simpa using hx
          subst hxnd
          exact le_trans hw (last_le_head _ hsort e f he hf)
    · -- overwrite the minimum and restore the order
      refine ⟨⟨insertDesc (sc nd, nd) hl.entries.dropLast, hl.n⟩, ?_, hhn, ?_, ?_, ?_, ?_⟩
      · unfold hrwList.add
        rw [if_pos hfull, he]
        exact if_neg hw
      · simp only [length_insertDesc, List.length_dropLast, hfull, hhn,
          List.length_append, List.length_cons, List.length_nil]
        omega
      · intro x hx
        rcases (mem_insertDesc _ x _).mp hx with rfl | hx
        · exact ⟨rfl, List.mem_append_right _ (by simp)⟩
        · have hx' := hmem x ((List.dropLast_sublist hl.entries).mem hx)
          exact ⟨hx'.1, List.mem_append_left _ hx'.2⟩
      · exact pairwise_insertDesc _ _ (hsort.sublist (List.dropLast_sublist _))
      · intro x hx f hf
        obtain ⟨hf1, hf2⟩ := head_insertDesc _ _ f hf
        rcases List.mem_append.mp hx with hx | hx
        · -- old processed node: bounded by the old head, which survives
          by_cases h2 : 2 ≤ hl.entries.length
          · have := hf2 b (by rw [head_dropLast_of_two _ h2]; exact hb)
            exact le_trans (hmax x hx b hb) this
          · -- singleton: the old (unique) entry is strictly below the new one
            have h1 : hl.entries.length = 1 := by
              have : hl.entries.length ≠ 0 := by
                simpa [List.length_eq_zero] using hne
              omega
            have heb : e = b := by
              cases hh : hl.entries with
              | nil => exact absurd hh hne
              | cons c t =>
                have : t = [] := by
                  rw [hh] at h1; simpa using h1
                subst this
                rw [hh] at he hb
                simp at he hb
                exact he.symm.trans hb
            exact le_trans (le_trans (hmax x hx b hb) (heb ▸ le_of_lt (not_le.mp hw))) hf1
        · have hxnd : x = nd := by simpa using hx
          subst hxnd
          exact hf1
  · -- room left: append and restore the order
    have hlt : hl.entries.length < n := by
      rw [hhn] at hfull
      omega
    have hPlen : hl.entries.length = P.length := by
      omega
    refine ⟨⟨insertDesc (sc nd, nd) hl.entries, hl.n⟩, ?_, hhn, ?_, ?_, ?_, ?_⟩
    · unfold hrwList.add
      rw [if_neg hfull]
    · simp only [length_insertDesc, hPlen,
        List.length_append, List.length_cons, List.length_nil]
      omega
    · intro x hx
      rcases (mem_insertDesc _ x _).mp hx with rfl | hx
      · exact ⟨rfl, List.mem_append_right _ (by simp)⟩
      · exact ⟨(hmem x hx).1, List.mem_append_left _ (hmem x hx).2⟩
    · exact pairwise_insertDesc _ _ hsort
    · intro x hx f hf
      obtain ⟨hf1, hf2⟩ := head_insertDesc _ _ f hf
      rcases List.mem_append.mp hx with hx | hx
      · cases hh : hl.entries with
        | nil =>
          have : P.length = 0 := by rw [hh] at hPlen; simpa using hPlen.symm
          rw [List.length_eq_zero] at this
          rw [this] at hx
          simp at hx
        | cons c t =>
          have := hf2 c (by rw [hh]; simp)
          exact le_trans (hmax x hx c (by rw [hh]; simp)) this
      · have hxnd : x = nd := by simpa using hx
        subst hxnd
        exact hf1

theorem goodHL_foldlM (sc : Snode → Nat) (n : Nat) (hn : 1 ≤ n)
    (E : List Snode) :
    ∀ (P : List Snode) (hl : hrwList), goodHL sc n P hl →
    ∃ hl', E.foldlM (fun hl tsi => hl.add (sc tsi) tsi) hl = some hl' ∧
      goodHL sc n (P ++ E) hl' := by
  induction E with
  | nil => exact fun P hl hg => ⟨hl, rfl, by simpa using hg⟩
  | cons a E ih =>
    intro P hl hg
    obtain ⟨hl1, ha, hg1⟩ := goodHL_add sc n hn P hl a hg
    obtain ⟨hl', hE, hg'⟩ := ih (P ++ [a]) hl1 hg1
    refine ⟨hl', ?_, by simpa using hg'⟩
    rw [List.foldlM_cons, ha]
    exact hE

/-! ## The HrwHash2T fold -/

theorem foldl_hrwStep_filter (mix : Nat → Nat) (digest : Nat) (l : List Snode)
    (acc : Nat × Option Snode) :
    l.foldl (hrwStep mix digest true) acc =
    (l.filter (fun t => !t.maintOrDecomm)).foldl (hrwStep mix digest true) acc := by
  induction l generalizing acc with
  | nil => rfl
  | cons a l ih =>
    by_cases h : a.maintOrDecomm
    · have hstep : hrwStep mix digest true acc a = acc := by
        simp [hrwStep, h]
      have hfil : (a :: l).filter (fun t => !t.maintOrDecomm) =
          l.filter (fun t => !t.maintOrDecomm) := by
        simp [List.filter_cons, h]
      rw [List.foldl_cons, hstep, hfil]
      exact ih acc
    · have hfil : (a :: l).filter (fun t => !t.maintOrDecomm) =
          a :: l.filter (fun t => !t.maintOrDecomm) := by
        simp [List.filter_cons, h]
      rw [hfil, List.foldl_cons, List.foldl_cons]
      exact ih _

theorem foldlM_skip_filter (sc : Snode → Nat) (l : List Snode) (hl : hrwList) :
    l.foldlM (fun hl tsi => if tsi.maintOrDecomm then some hl else hl.add (sc tsi) tsi) hl =
    (l.filter (fun t => !t.maintOrDecomm)).foldlM (fun hl tsi => hl.add (sc tsi) tsi) hl := by
  induction l generalizing hl with
  | nil => rfl
  | cons a l ih =>
    by_cases h : a.maintOrDecomm
    · have hfil : (a :: l).filter (fun t => !t.maintOrDecomm) =
          l.filter (fun t => !t.maintOrDecomm) := by
        simp [List.filter_cons, h]
      rw [hfil, List.foldlM_cons, if_pos h]
      simp only [Option.bind_eq_bind, Option.some_bind]
      exact ih hl
    · have hfil : (a :: l).filter (fun t => !t.maintOrDecomm) =
          a :: l.filter (fun t => !t.maintOrDecomm) := by
        simp [List.filter_cons, h]
      rw [hfil, List.foldlM_cons, List.foldlM_cons, if_neg h]
      cases hadd : hl.add (sc a) a with
      | none => simp
      | some hl' =>
        simp only [Option.bind_eq_bind, Option.some_bind]
        exact ih hl'

/-- The running (max, node) accumulator of the HrwHash2T loop over a list of
non-maintenance candidates: the max never decreases, dominates every
candidate's score, the stored node carries the max as its own score (unless it
is the untouched initial node), and a non-nil node stays non-nil. -/
theorem hrwStep_fold_inv (mix : Nat → Nat) (digest : Nat) (E : List Snode)
    (hE : ∀ t ∈ E, t.maintOrDecomm = false) (acc : Nat × Option Snode) :
    acc.1 ≤ (E.foldl (hrwStep mix digest true) acc).1 ∧
    (∀ x ∈ E, hrwScore mix digest x ≤ (E.foldl (hrwStep mix digest true) acc).1) ∧
    (∀ nd, (E.foldl (hrwStep mix digest true) acc).2 = some nd →
      ((E.foldl (hrwStep mix digest true) acc).1 = hrwScore mix digest nd ∧ nd ∈ E) ∨
      (acc.2 = some nd ∧ (E.foldl (hrwStep mix digest true) acc).1 = acc.1)) ∧
    (acc.2.isSome → (E.foldl (hrwStep mix digest true) acc).2.isSome) := by
  induction E generalizing acc with
  | nil =>
    exact ⟨le_refl _, by simp, fun nd h => Or.inr ⟨h, rfl⟩, fun h => h⟩
  | cons a E ih =>
    have ha : a.maintOrDecomm = false := hE a (by simp)
    have hE' : ∀ t ∈ E, t.maintOrDecomm = false := fun t ht => hE t (by simp [ht])
    rw [List.foldl_cons]
    have hstep : hrwStep mix digest true acc a =
        if acc.1 ≤ hrwScore mix digest a then (hrwScore mix digest a, some a) else acc := by
      simp [hrwStep, ha]
    by_cases hup : acc.1 ≤ hrwScore mix digest a
    · rw [hstep, if_pos hup]
      obtain ⟨ih1, ih2, ih3, ih4⟩ := ih hE' (hrwScore mix digest a, some a)
      refine ⟨le_trans hup ih1, ?_, ?_, fun _ => ih4 rfl⟩
      · intro x hx
        rcases List.mem_cons.mp hx with rfl | hx
        · exact ih1
        · exact ih2 x hx
      · intro nd hnd
        rcases ih3 nd hnd with ⟨h1, h2⟩ | ⟨h1, h2⟩
        · exact Or.inl ⟨h1, by simp [h2]⟩
        · have : nd = a := by simpa using h1.symm
          subst this
          exact Or.inl ⟨h2, by simp⟩
    · rw [hstep, if_neg hup]
      obtain ⟨ih1, ih2, ih3, ih4⟩ := ih hE' acc
      refine ⟨ih1, ?_, ?_, ih4⟩
      · intro x hx
        rcases List.mem_cons.mp hx with rfl | hx
        · exact le_trans (le_of_lt (not_le.mp hup)) ih1
        · exact ih2 x hx
      · intro nd hnd
        rcases ih3 nd hnd with ⟨h1, h2⟩ | ⟨h1, h2⟩
        · exact Or.inl ⟨h1, by simp [h2]⟩
        · exact Or.inr ⟨h1, h2⟩

/-- HrwHash2T with maintenance filtering enabled: whenever some eligible
target exists, it returns an eligible target whose score dominates the score
of every eligible target. -/
theorem HrwHash2T_spec (mix : Nat → Nat) (smap : Smap) (digest : Nat)
    (hne : smap.eligibleTargets ≠ []) :
    ∃ s, smap.HrwHash2T mix digest true = some s ∧ s ∈ smap.eligibleTargets ∧
      ∀ nd ∈ smap.eligibleTargets, hrwScore mix digest nd ≤ hrwScore mix digest s := by
  unfold Smap.HrwHash2T
  rw [foldl_hrwStep_filter]
  have hEfalse : ∀ t ∈ smap.Tmap.filter (fun t => !t.maintOrDecomm),
      t.maintOrDecomm = false := by
    intro t ht
    simpa using (List.mem_filter.mp ht).2
  cases hE : smap.Tmap.filter (fun t => !t.maintOrDecomm) with
  | nil => exact absurd hE hne
  | cons a E' =>
    rw [List.foldl_cons]
    have ha : a.maintOrDecomm = false := hEfalse a (by rw [hE]; simp)
    have hfirst : hrwStep mix digest true (0, none) a = (hrwScore mix digest a, some a) := by
      simp [hrwStep, ha]
    rw [hfirst]
    have hE' : ∀ t ∈ E', t.maintOrDecomm = false := by
      intro t ht
      exact hEfalse t (by rw [hE]; simp [ht])
    obtain ⟨h1, h2, h3, h4⟩ := hrwStep_fold_inv mix digest E' hE'
      (hrwScore mix digest a, some a)
    obtain ⟨s, hs⟩ := Option.isSome_iff_exists.mp (h4 rfl)
    refine ⟨s, hs, ?_, ?_⟩
    · rcases h3 s hs with ⟨_, hmem⟩ | ⟨hs', _⟩
      · rw [show smap.eligibleTargets = a :: E' from hE]
        exact List.mem_cons.mpr (Or.inr hmem)
      · have : s = a := by simpa using hs'.symm
        subst this
        rw [show smap.eligibleTargets = s :: E' from hE]
        exact List.mem_cons.mpr (Or.inl rfl)
    · intro nd hnd
      have hscore : (E'.foldl (hrwStep mix digest true) (hrwScore mix digest a, some a)).1 =
          hrwScore mix digest s := by
        rcases h3 s hs with ⟨hh, _⟩ | ⟨hs', hh⟩
        · exact hh
        · have : s = a := by simpa using hs'.symm
          subst this
          exact hh
      rw [show smap.eligibleTargets = a :: E' from hE] at hnd
      rcases List.mem_cons.mp hnd with rfl | hnd
      · exact hscore ▸ h1
      · exact hscore ▸ h2 nd hnd

theorem foldlM_add_zero (sc : Snode → Nat) (a : Snode) (E : List Snode) :
    (a :: E).foldlM (fun hl t => hl.add (sc t) t) (newHrwList 0) = none := by
  rw [List.foldlM_cons]
  have h : (newHrwList 0).add (sc a) a = none := by
    unfold hrwList.add newHrwList
    simp
  rw [h]
  rfl

/-! ## C2: order of the HrwTargetList result -/

/-- C2 as amended: whenever HrwTargetList succeeds, the returned targets are
in non-increasing (descending with possible ties) HRW-score order; and
whenever the eligible targets have pairwise distinct scores, the first
returned target is the one HrwHash2T (with maintenance filtering) selects for
the same key digest. -/
theorem c2_hrw_target_list_order (mix : Nat → Nat) (hash : String → Nat)
    (smap : Smap) (uname : String) (count : Nat) (sis : List Snode)
    (hsucc : smap.HrwTargetList mix hash uname count = some (Except.ok sis)) :
    sis.Pairwise (fun a b => hrwScore mix (hash uname) b ≤ hrwScore mix (hash uname) a) ∧
    (smap.eligibleTargets.Pairwise
        (fun a b => hrwScore mix (hash uname) a ≠ hrwScore mix (hash uname) b) →
      sis ≠ [] → sis.head? = smap.HrwHash2T mix (hash uname) true) := by
  have hElig : smap.eligibleTargets = smap.Tmap.filter (fun t => !t.maintOrDecomm) := rfl
  unfold Smap.HrwTargetList at hsucc
  by_cases h1 : smap.CountTargets < count
  · rw [if_pos h1] at hsucc
    simp at hsucc
  · rw [if_neg h1, foldlM_skip_filter (hrwScore mix (hash uname))] at hsucc
    by_cases hc0 : count = 0
    · subst hc0
      cases hE : smap.Tmap.filter (fun t => !t.maintOrDecomm) with
      | nil =>
        rw [hE] at hsucc
        simp only [List.foldlM_nil] at hsucc
        have hs : sis = [] := by
          simp [newHrwList] at hsucc
          exact hsucc
        subst hs
        exact ⟨by simp, fun _ hne => absurd rfl hne⟩
      | cons a E' =>
        rw [hE, foldlM_add_zero] at hsucc
        simp at hsucc
    · have hn : 1 ≤ count := Nat.one_le_iff_ne_zero.mpr hc0
      obtain ⟨hl, hfold, hg⟩ := goodHL_foldlM (hrwScore mix (hash uname)) count hn
        (smap.Tmap.filter (fun t => !t.maintOrDecomm)) [] (newHrwList count)
        (goodHL_init _ _)
      rw [hfold, Option.map_some'] at hsucc
      rw [List.nil_append] at hg
      obtain ⟨hhn, hlen, hmem, hsort, hmax⟩ := hg
      by_cases h2 : count ≠ smap.CountTargets ∧ (hl.entries.map Prod.snd).length < count
      · rw [if_pos h2] at hsucc
        simp at hsucc
      · rw [if_neg h2] at hsucc
        have hsis : sis = hl.entries.map Prod.snd := by
          simp at hsucc
          exact hsucc.symm
        subst hsis
        constructor
        · rw [List.pairwise_map]
          refine List.Pairwise.imp_of_mem ?_ hsort
          intro a b ha hb hr
          have ha' := hmem a ha
          have hb' := hmem b hb
          rw [← ha'.1, ← hb'.1]
          exact hr
        · intro hdist hne
          have hentne : hl.entries ≠ [] := fun h => hne (by simp [h])
          obtain ⟨e, rest, hent⟩ := List.exists_cons_of_ne_nil hentne
          have hhead : hl.entries.head? = some e := by rw [hent]; rfl
          have heP := hmem e (by rw [hent]; simp)
          have hEne : smap.eligibleTargets ≠ [] := by
            rw [hElig]
            intro h
            rw [h] at heP
            simp at heP
          obtain ⟨s, hs, hsE, hsmax⟩ := HrwHash2T_spec mix smap (hash uname) hEne
          have hle1 : hrwScore mix (hash uname) e.2 ≤ hrwScore mix (hash uname) s :=
            hsmax e.2 (by rw [hElig]; exact heP.2)
          have hle2 : hrwScore mix (hash uname) s ≤ hrwScore mix (hash uname) e.2 := by
            have := hmax s (by rw [← hElig]; exact hsE) e hhead
            rw [heP.1] at this
            exact this
          have heq := le_antisymm hle1 hle2
          have huniq : e.2 = s := by
            by_contra hne2
            have hsym : Symmetric
                (fun a b => hrwScore mix (hash uname) a ≠ hrwScore mix (hash uname) b) :=
              fun x y h hxy => h hxy.symm
            exact hdist.forall hsym (by rw [hElig]; exact heP.2) hsE hne2 heq
          rw [hent]
          simp only [List.map_cons, List.head?_cons]
          rw [hs, huniq]

/-- C2 counterexample: two eligible targets with equal digests tie on the HRW
score.  HrwTargetList then returns them in map-iteration order, which is not
strictly descending, and its first element differs from the HrwHash2T choice
(ties there go to the later candidate because of the >= comparison). -/
theorem c2_counterexample :
    let t1 : Snode := ⟨"t1", 0, false⟩
    let t2 : Snode := ⟨"t2", 0, false⟩
    let smap : Smap := ⟨[t1, t2], [], 1⟩
    smap.HrwTargetList id (fun _ => 0) "k" 2 = some (Except.ok [t1, t2]) ∧
    ¬ ([t1, t2].Pairwise
        (fun a b => hrwScore id 0 b < hrwScore id 0 a)) ∧
    smap.HrwHash2T id 0 true = some t2 ∧ ([t1, t2].head? = some t1) ∧ t1 ≠ t2 := by
  refine ⟨rfl, ?_, rfl, rfl, by decide⟩
  intro h
  have := List.rel_of_pairwise_cons h (List.mem_singleton.mpr rfl)
  simp [hrwScore] at this

/-- Witness for C2 at a success instance with distinct scores: the result is
descending and headed by the HrwHash2T target. -/
theorem c2_witness :
    ([⟨"t2", 2, false⟩, ⟨"t1", 1, false⟩] : List Snode).Pairwise
      (fun a b => hrwScore id 0 b ≤ hrwScore id 0 a) ∧
    ((⟨[⟨"t1", 1, false⟩, ⟨"t2", 2, false⟩], [], 1⟩ : Smap).eligibleTargets.Pairwise
        (fun a b => hrwScore id 0 a ≠ hrwScore id 0 b) →
      ([⟨"t2", 2, false⟩, ⟨"t1", 1, false⟩] : List Snode) ≠ [] →
      ([⟨"t2", 2, false⟩, ⟨"t1", 1, false⟩] : List Snode).head? =
        (⟨[⟨"t1", 1, false⟩, ⟨"t2", 2, false⟩], [], 1⟩ : Smap).HrwHash2T id 0 true) :=
  c2_hrw_target_list_order id (fun _ => 0) ⟨[⟨"t1", 1, false⟩, ⟨"t2", 2, false⟩], [], 1⟩
    "k" 2 [⟨"t2", 2, false⟩, ⟨"t1", 1, false⟩] rfl

/-! ## C3: when HrwTargetList fails -/

/-- C3 as amended: for count >= 1 the call never panics, it fails with
NotEnoughTargets exactly when fewer than count eligible targets exist AND
count differs from the total target count, and on success it returns
min count (number of eligible targets) targets - which is count itself
except in the exempted count = CountTargets case. -/
theorem c3_hrw_target_list_failure (mix : Nat → Nat) (hash : String → Nat)
    (smap : Smap) (uname : String) (count : Nat) (hn : 1 ≤ count) :
    ∃ r, smap.HrwTargetList mix hash uname count = some r ∧
      ((∃ e, r = Except.error e) ↔
        (smap.eligibleTargets.length < count ∧ count ≠ smap.CountTargets)) ∧
      (∀ sis, r = Except.ok sis →
        sis.length = min count smap.eligibleTargets.length) := by
  have hElig : smap.eligibleTargets = smap.Tmap.filter (fun t => !t.maintOrDecomm) := rfl
  have hEligLe : smap.eligibleTargets.length ≤ smap.CountTargets := by
    rw [hElig]
    exact List.length_filter_le _ _
  by_cases h1 : smap.CountTargets < count
  · refine ⟨Except.error (.NotEnoughTargets count smap.CountTargets), ?_, ?_, ?_⟩
    · rw [Smap.HrwTargetList, if_pos h1]
    · constructor
      · intro _
        exact ⟨by omega, by omega⟩
      · intro _
        exact ⟨_, rfl⟩
    · intro sis h
      simp at h
  · obtain ⟨hl, hfold, hg⟩ := goodHL_foldlM (hrwScore mix (hash uname)) count hn
      (smap.Tmap.filter (fun t => !t.maintOrDecomm)) [] (newHrwList count)
      (goodHL_init _ _)
    rw [List.nil_append] at hg
    obtain ⟨hhn, hlen, hmem, hsort, hmax⟩ := hg
    have hlen' : (hl.entries.map Prod.snd).length = min count smap.eligibleTargets.length := by
      rw [List.length_map, hlen, hElig]
    by_cases h2 : count ≠ smap.CountTargets ∧ (hl.entries.map Prod.snd).length < count
    · refine ⟨Except.error (.NotEnoughTargets count (hl.entries.map Prod.snd).length),
        ?_, ?_, ?_⟩
      · rw [Smap.HrwTargetList, if_neg h1,
          foldlM_skip_filter (hrwScore mix (hash uname)), hfold, Option.map_some',
          if_pos h2]
      · constructor
        · intro _
          refine ⟨?_, h2.1⟩
          have := h2.2
          rw [hlen'] at this
          omega
        · intro _
          exact ⟨_, rfl⟩
      · intro sis h
        simp at h
    · refine ⟨Except.ok (hl.entries.map Prod.snd), ?_, ?_, ?_⟩
      · rw [Smap.HrwTargetList, if_neg h1,
          foldlM_skip_filter (hrwScore mix (hash uname)), hfold, Option.map_some',
          if_neg h2]
      · constructor
        · intro ⟨e, he⟩
          simp at he
        · intro ⟨hlt, hne⟩
          exfalso
          apply h2
          refine ⟨hne, ?_⟩
          rw [hlen']
          omega
      · intro sis h
        have : hl.entries.map Prod.snd = sis := by simpa using h
        rw [← this, hlen']

/-- C3 counterexample: two targets, one in maintenance, count = 2 = total
target count.  Only one eligible target exists (fewer than count), yet the
call succeeds - with a single target - instead of failing with
NotEnoughTargets, because count = CountTargets is exempted. -/
theorem c3_counterexample :
    let t1 : Snode := ⟨"t1", 0, false⟩
    let t2 : Snode := ⟨"t2", 1, true⟩
    let smap : Smap := ⟨[t1, t2], [], 1⟩
    smap.HrwTargetList id (fun _ => 0) "k" 2 = some (Except.ok [t1]) ∧
    smap.eligibleTargets.length < 2 := by
  exact ⟨rfl, by decide⟩

/-- Witness for C3 at a concrete map with one maintenance target and
count = 1 < CountTargets. -/
theorem c3_witness :
    1 ≤ 1 ∧
    ∃ r, (⟨[⟨"t1", 0, false⟩, ⟨"t2", 1, true⟩], [], 1⟩ : Smap).HrwTargetList
        id (fun _ => 0) "k" 1 = some r ∧
      ((∃ e, r = Except.error e) ↔
        ((⟨[⟨"t1", 0, false⟩, ⟨"t2", 1, true⟩], [], 1⟩ : Smap).eligibleTargets.length < 1 ∧
          1 ≠ (⟨[⟨"t1", 0, false⟩, ⟨"t2", 1, true⟩], [], 1⟩ : Smap).CountTargets)) ∧
      (∀ sis, r = Except.ok sis →
        sis.length =
          min 1 (⟨[⟨"t1", 0, false⟩, ⟨"t2", 1, true⟩], [], 1⟩ : Smap).eligibleTargets.length) :=
  ⟨le_refl 1, c3_hrw_target_list_failure id (fun _ => 0) _ "k" 1 (le_refl 1)⟩

/-! ## Target-side download queue (src/downloader/download.go) -/

/-- A download object (cmn.DlObj): object name and source link. -/
structure DlObj where
  Objname : String
  Link : String
  deriving Repr, DecidableEq

/-- The download request embedded in every task (the fields uid depends on,
plus the job id). -/
structure Request where
  id : String
  obj : DlObj
  bucket : String
  bckProvider : String
  timeout : String
  deriving Repr, DecidableEq

/-- request.uid: the link|bucket|objname triple identifying a task inside a
jogger queue. -/
def Request.uid (req : Request) : String :=
  req.obj.Link ++ "|" ++ req.bucket ++ "|" ++ req.obj.Objname

/-- queueChSize: capacity of the buffered task channel of one jogger. -/
def queueChSize : Nat := 200

/-- putInQueueTimeout in seconds (time.Second * 10); the wall-clock wait is
not modelled - a send that cannot complete is the timeout branch. -/
def putInQueueTimeoutSeconds : Nat := 10

/-- http.StatusRequestTimeout. -/
def StatusRequestTimeout : Nat := 408

/-- A jogger queue: the buffered channel ch of pending tasks and the uid set
m (tasks stay in m until completion to block re-enqueue of in-flight work). -/
structure Queue where
  ch : List Request
  m : List String
  deriving Repr, DecidableEq

/-- queue.put.  If the uid is already present, nothing is enqueued and no
error is returned (added = false).  Otherwise the channel send is attempted:
with the channel full it cannot complete within the 10-second timer and put
returns the RequestTimeout error without recording the uid; with room
available the task is enqueued and its uid recorded (added = true).
Result: (new queue state, added, optional (message, http code) error). -/
def Queue.put (q : Queue) (t : Request) : Queue × Bool × Option (String × Nat) :=
  if t.uid ∈ q.m then (q, false, none)
  else if q.ch.length < queueChSize then
    ({ ch := q.ch ++ [t], m := t.uid :: q.m }, true, none)
  else
    (q, false, some ("timeout when trying to put task in queue, try later",
      StatusRequestTimeout))

/-- queue.get marks the found task; queue.delete removes a uid, reporting
whether it existed (used when a task finishes or a job is cancelled). -/
def Queue.delete (q : Queue) (req : Request) : Queue × Bool :=
  ({ q with m := q.m.filter (fun u => u ≠ req.uid) }, req.uid ∈ q.m)

/-! ## C4: the three outcomes of queue.put -/

/-- C4: for every queue state and task: a duplicate uid is dropped with
added = false and no error and nothing enqueued; a full channel with a fresh
uid yields the RequestTimeout (HTTP 408) error, leaves the state unchanged
and does not record the uid; otherwise the task is appended to the channel,
its uid is recorded, and added = true with no error. -/
theorem c4_queue_put_cases (q : Queue) (t : Request) :
    (t.uid ∈ q.m → q.put t = (q, false, none)) ∧
    (t.uid ∉ q.m → queueChSize ≤ q.ch.length →
      (q.put t).1 = q ∧ (q.put t).2.1 = false ∧
      ∃ msg, (q.put t).2.2 = some (msg, StatusRequestTimeout) ∧
        t.uid ∉ (q.put t).1.m) ∧
    (t.uid ∉ q.m → q.ch.length < queueChSize →
      q.put t = ({ ch := q.ch ++ [t], m := t.uid :: q.m }, true, none)) := by
  refine ⟨?_, ?_, ?_⟩
  · intro h
    unfold Queue.put
    rw [if_pos h]
  · intro h hfull
    unfold Queue.put
    rw [if_neg h, if_neg (by omega)]
    exact ⟨rfl, rfl, "timeout when trying to put task in queue, try later", rfl, h⟩
  · intro h hroom
    unfold Queue.put
    rw [if_neg h, if_pos hroom]

set_option maxRecDepth 4000 in
/-- Witness for C4: all three branches at concrete queues and a concrete
task. -/
theorem c4_witness :
    let t : Request := ⟨"job1", ⟨"o", "http://x/o"⟩, "b", "ais", ""⟩
    let qDup : Queue := ⟨[], ["http://x/o|b|o"]⟩
    let qFull : Queue := ⟨List.replicate 200 ⟨"j", ⟨"p", "l"⟩, "b", "ais", ""⟩, []⟩
    let qRoom : Queue := ⟨[], []⟩
    qDup.put t = (qDup, false, none) ∧
    ((qFull.put t).1 = qFull ∧ (qFull.put t).2.1 = false ∧
      ∃ msg, (qFull.put t).2.2 = some (msg, StatusRequestTimeout) ∧
        t.uid ∉ (qFull.put t).1.m) ∧
    qRoom.put t = (⟨[t], [t.uid]⟩, true, none) := by
  intro t qDup qFull qRoom
  refine ⟨(c4_queue_put_cases qDup t).1 (by decide), ?_, ?_⟩
  · exact (c4_queue_put_cases qFull t).2.1 (by decide) (by decide)
  · exact (c4_queue_put_cases qRoom t).2.2 (by decide) (by decide)

/-! ## Proxy broadcast aggregation (src/ais/downloader.go) -/

/-- A per-target reply (dlResponse): body, HTTP status, error. -/
structure dlResponse where
  body : String
  statusCode : Nat
  err : Option String
  deriving Repr, DecidableEq

def StatusBadRequest : Nat := 400
def StatusNotFound : Nat := 404

/-- The two methods broadcastDownloadRequest is called with (GET = status,
DELETE = cancel). -/
inductive DlMethod where
  | get
  | delete
  deriving Repr, DecidableEq

/-- The (string, error) outcome of broadcastDownloadRequest: an error return,
a status summary (finished and total sums; their string rendering with the
float percentage is presentation), or a cancel reply body. -/
inductive BcastResult where
  | errRes (e : Option String)
  | statusOk (finished total : Nat)
  | cancelOk (body : String)
  deriving Repr, DecidableEq

/-- One iteration of the classification loop: a status >= 400 is counted when
it is 404 and is collected as an error otherwise; anything below 400 is a
valid response. -/
def classifyResp (acc : Nat × List dlResponse × List dlResponse)
    (resp : dlResponse) : Nat × List dlResponse × List dlResponse :=
  if StatusBadRequest ≤ resp.statusCode then
    if resp.statusCode = StatusNotFound then (acc.1 + 1, acc.2.1, acc.2.2)
    else (acc.1, acc.2.1 ++ [resp], acc.2.2)
  else (acc.1, acc.2.1, acc.2.2 ++ [resp])

/-- A response counted as 404 by the loop. -/
def is404 (r : dlResponse) : Bool :=
  decide (StatusBadRequest ≤ r.statusCode) && (r.statusCode == StatusNotFound)

/-- A response collected into the error slice by the loop. -/
def isErrOther (r : dlResponse) : Bool :=
  decide (StatusBadRequest ≤ r.statusCode) && !(r.statusCode == StatusNotFound)

/-- A valid (below 400) response. -/
def isValid (r : dlResponse) : Bool := !decide (StatusBadRequest ≤ r.statusCode)

/-- proxyrunner.broadcastDownloadRequest, after the per-target fan-out has
produced the replies: classify, surface responses[0].err when everything was
404, else the first non-404 error, else aggregate (GET sums the parsed
finished/total pairs over the valid replies; DELETE returns
responses[0].body).  parse stands for the jsoniter.Unmarshal of a status
body; Option.none models the out-of-range slice access responses[0]. -/
def broadcastDownloadRequest (parse : String → Nat × Nat) (method : DlMethod)
    (responses : List dlResponse) : Option BcastResult :=
  let acc := responses.foldl classifyResp (0, [], [])
  if acc.1 = responses.length then
    match responses.head? with
    | none => none
    | some r => some (.errRes r.err)
  else if 0 < acc.2.1.length then
    match acc.2.1.head? with
    | none => none
    | some e => some (.errRes e.err)
  else
    match method with
    | .get =>
      some (.statusOk ((acc.2.2.map (fun r => (parse r.body).1)).sum)
        ((acc.2.2.map (fun r => (parse r.body).2)).sum))
    | .delete =>
      match responses.head? with
      | none => none
      | some r => some (.cancelOk r.body)

theorem classify_foldl (rs : List dlResponse) :
    ∀ c es vs, rs.foldl classifyResp (c, es, vs) =
      (c + rs.countP is404, es ++ rs.filter isErrOther, vs ++ rs.filter isValid) := by
  induction rs with
  | nil => intro c es vs; simp
  | cons r rs ih =>
    intro c es vs
    rw [List.foldl_cons]
    by_cases h4 : StatusBadRequest ≤ r.statusCode
    · by_cases hnf : r.statusCode = StatusNotFound
      · have hc : classifyResp (c, es, vs) r = (c + 1, es, vs) := by
          unfold classifyResp
          rw [if_pos h4, if_pos hnf]
        rw [hc, ih]
        have h1 : is404 r = true := by
          simp only [is404, hnf]
          decide
        have h2 : isErrOther r = false := by
          simp only [isErrOther, hnf]
          decide
        have h3 : isValid r = false := by
          simp only [isValid]
          simp [h4]
        simp [List.countP_cons, List.filter_cons, h1, h2, h3]
        omega
      · have hc : classifyResp (c, es, vs) r = (c, es ++ [r], vs) := by
          unfold classifyResp
          rw [if_pos h4, if_neg hnf]
        rw [hc, ih]
        have h1 : is404 r = false := by simp [is404, hnf]
        have h2 : isErrOther r = true := by simp [isErrOther, h4, hnf]
        have h3 : isValid r = false := by
          simp only [isValid]
          simp [h4]
        simp [List.countP_cons, List.filter_cons, h1, h2, h3]
    · have hc : classifyResp (c, es, vs) r = (c, es, vs ++ [r]) := by
        unfold classifyResp
        rw [if_neg h4]
      rw [hc, ih]
      have h1 : is404 r = false := by simp [is404, h4]
      have h2 : isErrOther r = false := by simp [isErrOther, h4]
      have h3 : isValid r = true := by simp [isValid, h4]
      simp [List.countP_cons, List.filter_cons, h1, h2, h3]

theorem head?_filter_eq_find? (p : dlResponse → Bool) (l : List dlResponse) :
    (l.filter p).head? = l.find? p := by
  induction l with
  | nil => rfl
  | cons a l ih =>
    by_cases h : p a
    · rw [List.filter_cons_of_pos h, List.find?_cons_of_pos _ h]
      rfl
    · rw [List.filter_cons_of_neg (by simpa using h), List.find?_cons_of_neg _ h]
      exact ih

theorem all404_iff_count (rs : List dlResponse) :
    rs.countP is404 = rs.length ↔ ∀ r ∈ rs, r.statusCode = StatusNotFound := by
  rw [List.countP_eq_length]
  constructor
  · intro h r hr
    have := h r hr
    simp [is404] at this
    exact this.2
  · intro h r hr
    have := h r hr
    simp [is404, this, StatusNotFound, StatusBadRequest]

/-- Unfolded form of broadcastDownloadRequest in terms of the classification
predicates. -/
theorem broadcast_eq (parse : String → Nat × Nat) (method : DlMethod)
    (responses : List dlResponse) :
    broadcastDownloadRequest parse method responses =
      (if responses.countP is404 = responses.length then
        match responses.head? with
        | none => none
        | some r => some (BcastResult.errRes r.err)
      else if 0 < (responses.filter isErrOther).length then
        match (responses.filter isErrOther).head? with
        | none => none
        | some e => some (BcastResult.errRes e.err)
      else
        match method with
        | .get =>
          some (.statusOk
            (((responses.filter isValid).map (fun r => (parse r.body).1)).sum)
            (((responses.filter isValid).map (fun r => (parse r.body).2)).sum))
        | .delete =>
          match responses.head? with
          | none => none
          | some r => some (.cancelOk r.body)) := by
  unfold broadcastDownloadRequest
  rw [classify_foldl responses 0 [] []]
  simp only [Nat.zero_add, List.nil_append]

/-! ## C5: aggregation of per-target admin replies -/

/-- C5: over any nonempty reply set: if every target replied 404, the first
reply's error is surfaced unchanged; otherwise the first non-404 error
(status >= 400 and not 404), if any, is surfaced; otherwise the broadcast
succeeds, the 404 replies being ignored. -/
theorem c5_broadcast_error_aggregation (parse : String → Nat × Nat)
    (method : DlMethod) (responses : List dlResponse) (hne : responses ≠ []) :
    ((∀ r ∈ responses, r.statusCode = StatusNotFound) →
      ∃ r0, responses.head? = some r0 ∧
        broadcastDownloadRequest parse method responses = some (.errRes r0.err)) ∧
    (¬ (∀ r ∈ responses, r.statusCode = StatusNotFound) →
      (∀ e, responses.find? isErrOther = some e →
        broadcastDownloadRequest parse method responses = some (.errRes e.err)) ∧
      (responses.find? isErrOther = none →
        ∃ v, broadcastDownloadRequest parse method responses = some v ∧
          ∀ e, v ≠ .errRes e)) := by
  obtain ⟨r0, rest, hr0⟩ := List.exists_cons_of_ne_nil hne
  have hhead : responses.head? = some r0 := by rw [hr0]; rfl
  rw [broadcast_eq]
  constructor
  · intro hall
    have hcnt : responses.countP is404 = responses.length :=
      (all404_iff_count responses).mpr hall
    rw [if_pos hcnt, hhead]
    exact ⟨r0, rfl, rfl⟩
  · intro hnall
    have hcnt : ¬ responses.countP is404 = responses.length :=
      fun h => hnall ((all404_iff_count responses).mp h)
    constructor
    · intro e he
      have hfe : (responses.filter isErrOther).head? = some e := by
        rw [head?_filter_eq_find?]
        exact he
      have hlen : 0 < (responses.filter isErrOther).length := by
        cases hf : responses.filter isErrOther with
        | nil => rw [hf] at hfe; simp at hfe
        | cons a l => simp
      rw [if_neg hcnt, if_pos hlen, hfe]
    · intro hnone
      have hfil : responses.filter isErrOther = [] := by
        rw [← head?_filter_eq_find?] at hnone
        exact List.head?_eq_none_iff.mp hnone
      rw [if_neg hcnt, hfil]
      rw [if_neg (by simp)]
      cases method with
      | get =>
        exact ⟨_, rfl, fun e h => BcastResult.noConfusion h⟩
      | delete =>
        rw [hhead]
        exact ⟨_, rfl, fun e h => BcastResult.noConfusion h⟩

/-- Witness for C5: a 404 reply followed by a success reply; not all replies
are 404, there is no non-404 error, and the broadcast succeeds. -/
theorem c5_witness :
    ((∀ r ∈ [⟨"nf", 404, some "e404"⟩, ⟨"done", 200, none⟩], dlResponse.statusCode r = StatusNotFound) →
      ∃ r0, ([⟨"nf", 404, some "e404"⟩, ⟨"done", 200, none⟩] : List dlResponse).head? = some r0 ∧
        broadcastDownloadRequest (fun _ => (1, 1)) DlMethod.delete
          [⟨"nf", 404, some "e404"⟩, ⟨"done", 200, none⟩] = some (.errRes r0.err)) ∧
    (¬ (∀ r ∈ [⟨"nf", 404, some "e404"⟩, ⟨"done", 200, none⟩], dlResponse.statusCode r = StatusNotFound) →
      (∀ e, ([⟨"nf", 404, some "e404"⟩, ⟨"done", 200, none⟩] : List dlResponse).find? isErrOther = some e →
        broadcastDownloadRequest (fun _ => (1, 1)) DlMethod.delete
          [⟨"nf", 404, some "e404"⟩, ⟨"done", 200, none⟩] = some (.errRes e.err)) ∧
      (([⟨"nf", 404, some "e404"⟩, ⟨"done", 200, none⟩] : List dlResponse).find? isErrOther = none →
        ∃ v, broadcastDownloadRequest (fun _ => (1, 1)) DlMethod.delete
          [⟨"nf", 404, some "e404"⟩, ⟨"done", 200, none⟩] = some v ∧ ∀ e, v ≠ .errRes e)) :=
  c5_broadcast_error_aggregation (fun _ => (1, 1)) DlMethod.delete
    [⟨"nf", 404, some "e404"⟩, ⟨"done", 200, none⟩] (by decide)

/-! ## C10: responses[0] on an empty reply set -/

/-- C10: with an empty target map the broadcast collects zero replies, the
all-404 test 0 = 0 holds vacuously, and the code reads responses[0] - an
out-of-range slice access (a Go runtime panic, modelled as none).  The
safety property claimed (no out-of-bounds indexing for every cluster map)
therefore fails at the empty target map. -/
theorem c10_broadcast_empty_responses_panics (parse : String → Nat × Nat)
    (method : DlMethod) :
    broadcastDownloadRequest parse method [] = none := rfl

/-! ## Range template expansion (src/ais/downloader.go, rangeDownloadHandler)

The loop `for i := start; i <= end; i += step` formats each index with
fmt.Sprintf("%s%0*d%s", prefix, digitCount, i, suffix) and records
objects[objname] = base + objname.  The parsed template components
(prefix, suffix, start, end, step, digitCount) are taken as inputs:
cmn.ParseBashTemplate is not under src/.  Modelled from the spec: the
template is bash-like prefix{START..END..STEP}suffix with zero-padded
width, so the digit width is the length of the START field (e.g. width 3
for 001..010, width 1 for 5..15). -/

/-- Decimal digits of n as characters, most significant first; fuel-based so
the kernel evaluates it (decCharsAux fuel n is stable once n < fuel). -/
def decCharsAux : Nat → Nat → List Char
  | 0, _ => []
  | fuel + 1, n =>
    if n < 10 then [Nat.digitChar n]
    else decCharsAux fuel (n / 10) ++ [Nat.digitChar (n % 10)]

/-- The %d rendering of a natural number (its decimal digit characters). -/
def decChars (n : Nat) : List Char := decCharsAux (n + 1) n

theorem decCharsAux_fuel : ∀ f1 f2 n, n < f1 → n < f2 →
    decCharsAux f1 n = decCharsAux f2 n := by
  intro f1
  induction f1 with
  | zero => intro f2 n h1; omega
  | succ f1 ih =>
    intro f2 n h1 h2
    cases f2 with
    | zero => omega
    | succ f2 =>
      by_cases h10 : n < 10
      · rw [decCharsAux, decCharsAux, if_pos h10, if_pos h10]
      · rw [decCharsAux, decCharsAux, if_neg h10, if_neg h10]
        have hd : n / 10 < n := Nat.div_lt_self (by omega) (by omega)
        rw [ih f2 (n / 10) (by omega) (by omega)]

theorem decChars_small (n : Nat) (h : n < 10) : decChars n = [Nat.digitChar n] := by
  unfold decChars
  rw [decCharsAux, if_pos h]

theorem decChars_step (n : Nat) (h : 10 ≤ n) :
    decChars n = decChars (n / 10) ++ [Nat.digitChar (n % 10)] := by
  unfold decChars
  rw [decCharsAux, if_neg (by omega)]
  have hd : n / 10 < n := Nat.div_lt_self (by omega) (by omega)
  rw [decCharsAux_fuel n (n / 10 + 1) (n / 10) (by omega) (by omega)]

theorem decChars_len_le : ∀ w n, 1 ≤ w → n < 10 ^ w → (decChars n).length ≤ w := by
  intro w
  induction w with
  | zero => omega
  | succ w ih =>
    intro n _ hlt
    by_cases h10 : n < 10
    · rw [decChars_small n h10]
      simp
    · have hw1 : 1 ≤ w := by
        by_contra hw0
        have : w = 0 := by omega
        subst this
        simp at hlt
        omega
      rw [decChars_step n (by omega)]
      have hd : n / 10 < 10 ^ w := by
        rw [Nat.div_lt_iff_lt_mul (by omega)]
        calc n < 10 ^ (w + 1) := hlt
        _ = 10 ^ w * 10 := by ring
      have := ih (n / 10) hw1 hd
      simp only [List.length_append, List.length_cons, List.length_nil]
      omega

/-- padList w n: the low w decimal digits of n, most significant first
(exactly the %0*d output whenever n fits in w digits). -/
def padList : Nat → Nat → List Char
  | 0, _ => []
  | w + 1, n => padList w (n / 10) ++ [Nat.digitChar (n % 10)]

theorem padList_length : ∀ w n, (padList w n).length = w := by
  intro w
  induction w with
  | zero => intro n; rfl
  | succ w ih =>
    intro n
    rw [padList]
    simp [ih]

theorem padList_zero : ∀ w, padList w 0 = List.replicate w '0' := by
  intro w
  induction w with
  | zero => rfl
  | succ w ih =>
    rw [padList]
    have h1 : (0 : Nat) / 10 = 0 := by omega
    have h2 : (0 : Nat) % 10 = 0 := by omega
    rw [h1, h2, ih]
    have : Nat.digitChar 0 = '0' := rfl
    rw [this, ← List.replicate_succ' w '0']

/-- Zero-padding to width w (fmt %0*d): leading zeros up to w, no
truncation when the number is wider. -/
def pad0 (w : Nat) (cs : List Char) : List Char :=
  List.replicate (w - cs.length) '0' ++ cs

theorem pad0_eq_padList : ∀ w n, 1 ≤ w → n < 10 ^ w →
    pad0 w (decChars n) = padList w n := by
  intro w
  induction w with
  | zero => omega
  | succ w ih =>
    intro n _ hlt
    by_cases h10 : n < 10
    · rw [decChars_small n h10]
      unfold pad0
      rw [padList]
      have h1 : n / 10 = 0 := by omega
      have h2 : n % 10 = n := by omega
      rw [h1, h2, padList_zero]
      simp
    · have hw1 : 1 ≤ w := by
        by_contra hw0
        have : w = 0 := by omega
        subst this
        simp at hlt
        omega
      have hd : n / 10 < 10 ^ w := by
        rw [Nat.div_lt_iff_lt_mul (by omega)]
        calc n < 10 ^ (w + 1) := hlt
        _ = 10 ^ w * 10 := by ring
      have hlen : (decChars (n / 10)).length ≤ w := decChars_len_le w (n / 10) hw1 hd
      rw [decChars_step n (by omega)]
      unfold pad0
      rw [padList, ← ih (n / 10) hw1 hd]
      unfold pad0
      simp only [List.length_append, List.length_cons, List.length_nil]
      rw [show w + 1 - ((decChars (n / 10)).length + 1) = w - (decChars (n / 10)).length
        from by omega]
      rw [List.append_assoc]

/-! ### Lexicographic comparison of equal-width decimal renderings -/

theorem digitChar_lt {a b : Nat} (ha : a < 10) (hb : b < 10) (h : a < b) :
    Nat.digitChar a < Nat.digitChar b := by
  interval_cases a <;> interval_cases b <;> decide

theorem lex_append_last {r : Char → Char → Prop} (l : List Char) {a b : Char}
    (s t : List Char) (h : r a b) :
    List.Lex r (l ++ a :: s) (l ++ b :: t) := by
  induction l with
  | nil => exact List.Lex.rel h
  | cons c l ih => exact List.Lex.cons ih

theorem lex_append_eqlen {r : Char → Char → Prop} :
    ∀ (l1 l2 s1 s2 : List Char), l1.length = l2.length →
      List.Lex r l1 l2 → List.Lex r (l1 ++ s1) (l2 ++ s2) := by
  intro l1
  induction l1 with
  | nil =>
    intro l2 s1 s2 hlen hlex
    have : l2 = [] := by
      cases l2 with
      | nil => rfl
      | cons b l2 => simp at hlen
    subst this
    cases hlex
  | cons a l1 ih =>
    intro l2 s1 s2 hlen hlex
    cases l2 with
    | nil => simp at hlen
    | cons b l2 =>
      cases hlex with
      | rel h => exact List.Lex.rel h
      | cons h => exact List.Lex.cons (ih l2 s1 s2 (by simpa using hlen) h)

theorem lex_prepend {r : Char → Char → Prop} (p : List Char)
    {l1 l2 s1 s2 : List Char} (hlen : l1.length = l2.length)
    (h : List.Lex r l1 l2) :
    List.Lex r (p ++ (l1 ++ s1)) (p ++ (l2 ++ s2)) := by
  induction p with
  | nil => exact lex_append_eqlen l1 l2 s1 s2 hlen h
  | cons c p ih => exact List.Lex.cons ih

theorem padList_lex : ∀ w m n, m < n → n < 10 ^ w →
    List.Lex (· < ·) (padList w m) (padList w n) := by
  intro w
  induction w with
  | zero => intro m n hmn hlt; omega
  | succ w ih =>
    intro m n hmn hlt
    rw [padList, padList]
    by_cases hh : m / 10 = n / 10
    · rw [hh]
      have hmod : m % 10 < n % 10 := by omega
      exact lex_append_last _ [] [] (digitChar_lt (by omega) (by omega) hmod)
    · have hdle : m / 10 ≤ n / 10 := Nat.div_le_div_right (by omega)
      have hdlt : m / 10 < n / 10 := by omega
      have hn10 : n / 10 < 10 ^ w := by
        rw [Nat.div_lt_iff_lt_mul (by omega)]
        calc n < 10 ^ (w + 1) := hlt
        _ = 10 ^ w * 10 := by ring
      exact lex_append_eqlen _ _ _ _
        (by rw [padList_length, padList_length]) (ih (m / 10) (n / 10) hdlt hn10)

/-- The object name of one range index: prefix, the index zero-padded to the
template's digit width, suffix (fmt "%s%0*d%s"). -/
def fmtObjname (pfx sfx : String) (w i : Nat) : String :=
  ⟨pfx.data ++ (pad0 w (decChars i) ++ sfx.data)⟩

theorem fmtObjname_lt (pfx sfx : String) (w : Nat) {m n : Nat} (hmn : m < n)
    (hw : 1 ≤ w) (hn : n < 10 ^ w) :
    fmtObjname pfx sfx w m < fmtObjname pfx sfx w n := by
  have hm : m < 10 ^ w := by omega
  rw [String.lt_iff_toList_lt]
  show List.Lex (fun a b => a < b) (pfx.data ++ (pad0 w (decChars m) ++ sfx.data))
    (pfx.data ++ (pad0 w (decChars n) ++ sfx.data))
  rw [pad0_eq_padList w m hw hm, pad0_eq_padList w n hw hn]
  exact lex_prepend pfx.data (by rw [padList_length, padList_length])
    (padList_lex w m n hmn hn)

/-! ### The range loop -/

/-- The index sequence of the loop `for i := start; i <= end; i += step`
(fuel-based; the fuel end+1-start dominates the iteration count for any
step >= 1). -/
def rangeLoop : Nat → Nat → Nat → Nat → List Nat
  | 0, _, _, _ => []
  | fuel + 1, i, endI, step =>
    if i ≤ endI then i :: rangeLoop fuel (i + step) endI step else []

def rangeIndices (start endI step : Nat) : List Nat :=
  rangeLoop (endI + 1 - start) start endI step

/-- rangeDownloadHandler's generation loop: for each index in order, the
object name from the template pieces and the link base ++ objname. -/
def genRangeObjects (base pfx sfx : String) (start endI step w : Nat) :
    List (String × String) :=
  (rangeIndices start endI step).map
    (fun i => (fmtObjname pfx sfx w i, base ++ fmtObjname pfx sfx w i))

theorem rangeLoop_fuel : ∀ f1 f2 i endI step, 1 ≤ step →
    endI + 1 - i ≤ f1 → endI + 1 - i ≤ f2 →
    rangeLoop f1 i endI step = rangeLoop f2 i endI step := by
  intro f1
  induction f1 with
  | zero =>
    intro f2 i endI step hstep h1 h2
    have hi : endI < i := by omega
    cases f2 with
    | zero => rfl
    | succ f2 =>
      rw [rangeLoop, rangeLoop, if_neg (by omega)]
  | succ f1 ih =>
    intro f2 i endI step hstep h1 h2
    cases f2 with
    | zero =>
      have hi : endI < i := by omega
      rw [rangeLoop, rangeLoop, if_neg (by omega)]
    | succ f2 =>
      rw [rangeLoop, rangeLoop]
      by_cases hle : i ≤ endI
      · rw [if_pos hle, if_pos hle,
          ih f2 (i + step) endI step hstep (by omega) (by omega)]
      · rw [if_neg hle, if_neg hle]

theorem rangeIndices_cons (start endI step : Nat) (hstep : 1 ≤ step)
    (h : start ≤ endI) :
    rangeIndices start endI step = start :: rangeIndices (start + step) endI step := by
  unfold rangeIndices
  obtain ⟨m, hm⟩ : ∃ m, endI + 1 - start = m + 1 := ⟨endI - start, by omega⟩
  rw [hm, rangeLoop, if_pos h,
    rangeLoop_fuel m (endI + 1 - (start + step)) (start + step) endI step hstep
      (by omega) (by omega)]

theorem rangeIndices_nil (start endI step : Nat) (h : endI < start) :
    rangeIndices start endI step = [] := by
  unfold rangeIndices
  rw [show endI + 1 - start = 0 from by omega]
  rfl

theorem rangeIndices_eq (step : Nat) (hstep : 1 ≤ step) :
    ∀ d start endI, endI - start ≤ d → start ≤ endI →
    rangeIndices start endI step =
      (List.range ((endI - start) / step + 1)).map (fun k => start + k * step) := by
  intro d
  induction d with
  | zero =>
    intro start endI hle h
    have he : endI = start := by omega
    subst he
    rw [rangeIndices_cons _ _ _ hstep (le_refl _),
      rangeIndices_nil _ _ _ (by omega), Nat.sub_self, Nat.zero_div]
    simp [List.range_succ]
  | succ d ih =>
    intro start endI hle h
    rw [rangeIndices_cons _ _ _ hstep h]
    by_cases h2 : start + step ≤ endI
    · rw [ih (start + step) endI (by omega) h2]
      have hdiv : (endI - start) / step = (endI - (start + step)) / step + 1 := by
        have h3 : step ≤ endI - start := by omega
        rw [Nat.div_eq_sub_div (by omega) h3,
          show endI - start - step = endI - (start + step) from by omega]
      rw [hdiv]
      conv_rhs => rw [List.range_succ_eq_map, List.map_cons, List.map_map]
      congr 1
      · simp
      · refine List.map_congr_left ?_
        intro k _
        simp only [Function.comp, Nat.succ_eq_add_one]
        ring
    · rw [rangeIndices_nil _ _ _ (by omega)]
      have hdiv : (endI - start) / step = 0 := Nat.div_eq_of_lt (by omega)
      rw [hdiv]
      simp [List.range_succ]

/-! ## C6: the range download handler's generated objects -/

/-- C6 as amended: for a valid range template prefix{A..B..S}suffix with
S >= 1 and A <= B whose end index fits the template's digit width
(B < 10^w), the handler generates exactly (B-A)/S + 1 objects, the k-th
being named prefix ++ zero-padded(A + k*S) ++ suffix with link
base ++ name, and the names sort (strictly, lexicographically) by the
integer order of their index. -/
theorem c6_range_template_objects (base pfx sfx : String) (A B S w : Nat)
    (hS : 1 ≤ S) (hAB : A ≤ B) (hw : 1 ≤ w) (hfit : B < 10 ^ w) :
    (genRangeObjects base pfx sfx A B S w).length = (B - A) / S + 1 ∧
    genRangeObjects base pfx sfx A B S w =
      (List.range ((B - A) / S + 1)).map
        (fun k => (fmtObjname pfx sfx w (A + k * S),
          base ++ fmtObjname pfx sfx w (A + k * S))) ∧
    ((genRangeObjects base pfx sfx A B S w).map Prod.fst).Pairwise (· < ·) := by
  have hidx := rangeIndices_eq S hS (B - A) A B (le_refl _) hAB
  have hmain : genRangeObjects base pfx sfx A B S w =
      (List.range ((B - A) / S + 1)).map
        (fun k => (fmtObjname pfx sfx w (A + k * S),
          base ++ fmtObjname pfx sfx w (A + k * S))) := by
    unfold genRangeObjects
    rw [hidx, List.map_map]
    rfl
  refine ⟨?_, hmain, ?_⟩
  · rw [hmain]
    simp
  · rw [hmain, List.map_map]
    rw [List.pairwise_map]
    refine List.Pairwise.imp_of_mem ?_ (List.pairwise_lt_range _)
    intro k k' hk hk' hlt
    have hk'le : k' ≤ (B - A) / S := by
      have := List.mem_range.mp hk'
      omega
    have hidxlt : A + k * S < A + k' * S := by
      have := Nat.mul_lt_mul_of_pos_right hlt (show 0 < S by omega)
      omega
    have hbound : A + k' * S ≤ B := by
      have h1 : k' * S ≤ ((B - A) / S) * S := Nat.mul_le_mul hk'le (le_refl S)
      have h2 : ((B - A) / S) * S ≤ B - A := Nat.div_mul_le_self _ _
      omega
    exact fmtObjname_lt pfx sfx w hidxlt hw (by omega)

set_option maxRecDepth 20000 in
/-- C6 counterexample: the valid bash template "{5..15}" (start 5, end 15,
step 1, digit width 1 - the width of the START field) satisfies S >= 1 and
A <= B, yet the generated names do not sort by the integer order of their
index: "10" through "15" precede "5" lexicographically. -/
theorem c6_counterexample :
    1 ≤ 1 ∧ 5 ≤ 15 ∧
    ¬ ((genRangeObjects "b/" "" "" 5 15 1 1).map Prod.fst).Pairwise (· < ·) := by
  refine ⟨le_refl _, by omega, ?_⟩
  intro hpair
  have hnames : (genRangeObjects "b/" "" "" 5 15 1 1).map Prod.fst =
      ["5", "6", "7", "8", "9", "10", "11", "12", "13", "14", "15"] := rfl
  rw [hnames, List.pairwise_cons] at hpair
  have h510 : ("5" : String) < "10" := hpair.1 "10" (by decide)
  rw [String.lt_iff_toList_lt] at h510
  have h' : List.Lex (fun a b => a < b) ['5'] ['1', '0'] := h510
  cases h' with
  | rel hr => exact absurd hr (by decide)

/-- Witness for C6 at the template img-{001..003}.jpg with base
http://x/. -/
theorem c6_witness :
    (genRangeObjects "http://x/" "img-" ".jpg" 1 3 1 3).length = (3 - 1) / 1 + 1 ∧
    genRangeObjects "http://x/" "img-" ".jpg" 1 3 1 3 =
      (List.range ((3 - 1) / 1 + 1)).map
        (fun k => (fmtObjname "img-" ".jpg" 3 (1 + k * 1),
          "http://x/" ++ fmtObjname "img-" ".jpg" 3 (1 + k * 1))) ∧
    ((genRangeObjects "http://x/" "img-" ".jpg" 1 3 1 3).map Prod.fst).Pairwise (· < ·) :=
  c6_range_template_objects "http://x/" "img-" ".jpg" 1 3 1 3 (by decide) (by decide)
    (by decide) (by decide)

/-! ## Shared data mover (src/transport/bundle/shared_dm.go) -/

/-- Modelled from the spec: the underlying DM's observable state - the
transport is open (stage.opened, set by dm.Open / cleared by dm.Close) and
registered with the transport layer (dm.RegRecv / dm.UnregRecv).  The DM
implementation itself is not under src/. -/
structure DMState where
  opened : Bool
  registered : Bool
  deriving Repr, DecidableEq

/-- sharedDM: the data mover plus the receiver table rxcbs mapping a job
(xaction) id to its receive callback; none is the nil map, callbacks are
identified by their job id.  The two mutexes serialize; the sequential model
keeps their protected state only. -/
structure SharedDM where
  dm : DMState
  rxcbs : Option (List String)
  deriving Repr, DecidableEq

/-- The key set of the receiver table (range over a possibly-nil Go map). -/
def rxKeys : Option (List String) → List String
  | none => []
  | some l => l

/-- The error of sharedDM.Close when receivers are registered: it names the
(arbitrarily chosen) registered job id and the table size. -/
structure CloseErr where
  xid : String
  count : Nat
  deriving Repr, DecidableEq

/-- sharedDM.Close: nothing to do when not open; with receivers still
registered, fail with an error naming one registered job id and leave
everything as is; otherwise clear the receiver table, close the transport
and unregister it. -/
def SharedDM.close (sdm : SharedDM) : SharedDM × Option CloseErr :=
  if !sdm.dm.opened then (sdm, none)
  else
    match (rxKeys sdm.rxcbs).head? with
    | some xid => (sdm, some ⟨xid, (rxKeys sdm.rxcbs).length⟩)
    | none => (⟨⟨false, false⟩, none⟩, none)

/-! ## C7: Close is refused while receivers are registered -/

/-- C7: on an open shared data mover: if at least one receiver callback is
registered, Close returns an error naming a registered job id and changes
nothing - the transport stays open; if none is registered, Close clears the
receiver table, tears the transport down, unregisters it and returns no
error. -/
theorem c7_shared_dm_close (sdm : SharedDM) (hopen : sdm.dm.opened = true) :
    (rxKeys sdm.rxcbs ≠ [] →
      ∃ e, sdm.close = (sdm, some e) ∧ e.xid ∈ rxKeys sdm.rxcbs ∧
        (sdm.close).1.dm.opened = true) ∧
    (rxKeys sdm.rxcbs = [] →
      sdm.close = (⟨⟨false, false⟩, none⟩, none)) := by
  constructor
  · intro hne
    obtain ⟨x, rest, hx⟩ := List.exists_cons_of_ne_nil hne
    have hhead : (rxKeys sdm.rxcbs).head? = some x := by rw [hx]; rfl
    have hcl : sdm.close = (sdm, some ⟨x, (rxKeys sdm.rxcbs).length⟩) := by
      unfold SharedDM.close
      rw [hopen, hhead]
      rfl
    exact ⟨⟨x, (rxKeys sdm.rxcbs).length⟩, hcl, by rw [hx]; simp,
      by rw [hcl]; exact hopen⟩
  · intro hnil
    have hhead : (rxKeys sdm.rxcbs).head? = none := by rw [hnil]; rfl
    unfold SharedDM.close
    rw [hopen, hhead]
    rfl

/-- Witness for C7: both branches at concrete states. -/
theorem c7_witness :
    ((rxKeys (⟨⟨true, true⟩, some ["job1"]⟩ : SharedDM).rxcbs ≠ [] →
      ∃ e, (⟨⟨true, true⟩, some ["job1"]⟩ : SharedDM).close =
          (⟨⟨true, true⟩, some ["job1"]⟩, some e) ∧
        e.xid ∈ rxKeys (⟨⟨true, true⟩, some ["job1"]⟩ : SharedDM).rxcbs ∧
        ((⟨⟨true, true⟩, some ["job1"]⟩ : SharedDM).close).1.dm.opened = true) ∧
     (rxKeys (⟨⟨true, true⟩, some ["job1"]⟩ : SharedDM).rxcbs = [] →
      (⟨⟨true, true⟩, some ["job1"]⟩ : SharedDM).close = (⟨⟨false, false⟩, none⟩, none))) ∧
    ((rxKeys (⟨⟨true, true⟩, some []⟩ : SharedDM).rxcbs ≠ [] →
      ∃ e, (⟨⟨true, true⟩, some []⟩ : SharedDM).close =
          (⟨⟨true, true⟩, some []⟩, some e) ∧
        e.xid ∈ rxKeys (⟨⟨true, true⟩, some []⟩ : SharedDM).rxcbs ∧
        ((⟨⟨true, true⟩, some []⟩ : SharedDM).close).1.dm.opened = true) ∧
     (rxKeys (⟨⟨true, true⟩, some []⟩ : SharedDM).rxcbs = [] →
      (⟨⟨true, true⟩, some []⟩ : SharedDM).close = (⟨⟨false, false⟩, none⟩, none))) :=
  ⟨c7_shared_dm_close ⟨⟨true, true⟩, some ["job1"]⟩ rfl,
   c7_shared_dm_close ⟨⟨true, true⟩, some []⟩ rfl⟩

/-! ## Notification fabric (src/ais/notifications.go) -/

/-- The three listener variants notifListenMsg.UnmarshalJSON can
reconstruct: query.NotifListenerQuery, downloader.NotifDownloadListerner,
xaction.NotifXactListener. -/
inductive NLVariant where
  | queryListener
  | downloadListener
  | xactListener
  deriving Repr, DecidableEq

/-- Modelled from the spec: the kind constants (cmn.ActQueryObjects, the four
downloader types) live outside src/; they are distinct string tokens. -/
def ActQueryObjects : String := "query_objects"

def DlTypeSingle : String := "download_single"
def DlTypeRange : String := "download_range"
def DlTypeMulti : String := "download_multi"
def DlTypeCloud : String := "download_cloud"

def isDLType (t : String) : Bool :=
  t == DlTypeMulti || t == DlTypeCloud || t == DlTypeSingle || t == DlTypeRange

/-- The variant selected by the envelope's kind tag during deserialization. -/
def variantOfKind (t : String) : NLVariant :=
  if t == ActQueryObjects then .queryListener
  else if isDLType t then .downloadListener
  else .xactListener

/-- Modelled from the spec: the serializable listener state of the nl
package (outside src/): uuid, kind, notifier set, per-notifier finished
flags, aborted flag, accumulated error, added / ended times. -/
structure NLData where
  uuid : String
  kind : String
  notifiers : List String
  finishedNodes : List String
  aborted : Bool
  errMsg : Option String
  addedTime : Nat
  endTime : Nat
  deriving Repr, DecidableEq

/-- A notification listener: dynamic variant plus serializable state. -/
structure NL where
  variant : NLVariant
  data : NLData
  deriving Repr, DecidableEq

/-- nl.MarkFinished(tsi): record that this notifier reported finish. -/
def NL.markFinishedNode (nl : NL) (tid : String) : NL :=
  { nl with data := { nl.data with finishedNodes :=
      if tid ∈ nl.data.finishedNodes then nl.data.finishedNodes
      else nl.data.finishedNodes ++ [tid] } }

/-- nl.AllFinished(): every notifier has reported finish. -/
def NL.allFinished (nl : NL) : Bool :=
  nl.data.notifiers.all (fun id => id ∈ nl.data.finishedNodes)

/-- A listener table (type listeners): a Go map [UUID => NotifListener],
modelled as an association list. -/
structure Listeners where
  m : List (String × NL)
  deriving Repr, DecidableEq

def tableKeys (l : Listeners) : List String := l.m.map Prod.fst

/-- listeners.add: idempotent insertion keyed by nl.UUID() (the Go presence
test if _, exists := l.m[uuid]); returns the updated table and whether the
uuid already existed. -/
def Listeners.add (l : Listeners) (nl : NL) : Listeners × Bool :=
  if nl.data.uuid ∈ tableKeys l then (l, true)
  else (⟨l.m ++ [(nl.data.uuid, nl)]⟩, false)

/-- listeners.del: removal keyed by nl.UUID(); returns whether it existed. -/
def Listeners.del (l : Listeners) (nl : NL) : Listeners × Bool :=
  if nl.data.uuid ∈ tableKeys l then
    (⟨l.m.filter (fun p => !(p.1 == nl.data.uuid))⟩, true)
  else (l, false)

/-- In-place mutation of the listener stored under a uuid (Go holds
pointers; mutating the listener updates what the table refers to). -/
def Listeners.update (l : Listeners) (uuid : String) (nl : NL) : Listeners :=
  ⟨l.m.map (fun p => if p.1 == uuid then (p.1, nl) else p)⟩

/-- The copy merge inserts: the incoming listener with its added-time set to
now (m.nl.SetAddedTime() right after the insertion mutates the stored
listener). -/
def stampNL (now : Nat) (nl : NL) : NL :=
  { nl with data := { nl.data with addedTime := now } }

/-- The loop of listeners.merge: an incoming listener whose uuid is already
present (the Go presence test) is dropped; an absent one is inserted with
its added-time set to now. -/
def mergeList (now : Nat) : List (String × NL) → List NL → List (String × NL)
  | acc, [] => acc
  | acc, nl :: msgs =>
    if nl.data.uuid ∈ acc.map Prod.fst then mergeList now acc msgs
    else mergeList now (acc ++ [(nl.data.uuid, stampNL now nl)]) msgs

def Listeners.merge (l : Listeners) (msgs : List NL) (now : Nat) : Listeners :=
  ⟨mergeList now l.m msgs⟩

/-- The serialized envelope of one listener (jsonNL): the kind tag and the
listener payload. -/
structure NLMsg where
  ty : String
  nl : NLData
  deriving Repr, DecidableEq

/-- notifListenMsg.MarshalJSON: tag with the listener's kind. -/
def newNLMsg (nl : NL) : NLMsg := ⟨nl.data.kind, nl.data⟩

/-- notifListenMsg.UnmarshalJSON: the kind tag selects the reconstructed
variant, the payload restores the state. -/
def unmarshalNLMsg (m : NLMsg) : NL := ⟨variantOfKind m.ty, m.nl⟩

/-- The two-list envelope of notifs.MarshalJSON (jsonNotifs). -/
structure JsonNotifs where
  running : List NLMsg
  finished : List NLMsg
  deriving Repr, DecidableEq

/-- The notification fabric state: running and finished listener tables and
the last seen cluster-map version. -/
structure Notifs where
  nls : Listeners
  fin : Listeners
  smapVer : Nat
  deriving Repr, DecidableEq

/-- notifs.MarshalJSON: serialize both tables, each entry tagged with its
kind. -/
def notifsMarshal (n : Notifs) : JsonNotifs :=
  ⟨n.nls.m.map (fun p => newNLMsg p.2), n.fin.m.map (fun p => newNLMsg p.2)⟩

/-- notifs.UnmarshalJSON: merge the decoded running entries into the running
table and the decoded finished entries into the finished table (each list
only when nonempty, as in the source). -/
def notifsUnmarshal (n : Notifs) (t : JsonNotifs) (now : Nat) : Notifs :=
  let n1 := if 0 < t.running.length then
      { n with nls := n.nls.merge (t.running.map unmarshalNLMsg) now } else n
  if 0 < t.finished.length then
    { n1 with fin := n1.fin.merge (t.finished.map unmarshalNLMsg) now } else n1

/-! ### Association-list lookup facts -/

theorem lookup_append_left (l1 l2 : List (String × NL)) (u : String)
    (h : u ∈ l1.map Prod.fst) :
    (l1 ++ l2).lookup u = l1.lookup u := by
  induction l1 with
  | nil => simp at h
  | cons p l1 ih =>
    obtain ⟨k, v⟩ := p
    by_cases hk : u = k
    · subst hk
      simp [List.lookup]
    · have hbeq : (u == k) = false := beq_eq_false_iff_ne.mpr hk
      have h' : u ∈ l1.map Prod.fst := by
        rw [List.map_cons] at h
        rcases List.mem_cons.mp h with h0 | h0
        · exact absurd h0 hk
        · exact h0
      rw [List.cons_append]
      simp [List.lookup, hbeq, ih h']

theorem lookup_append_missing (l : List (String × NL)) (v : NL) (u : String)
    (h : u ∉ l.map Prod.fst) :
    (l ++ [(u, v)]).lookup u = some v := by
  induction l with
  | nil => simp [List.lookup]
  | cons p l ih =>
    obtain ⟨k, w⟩ := p
    have hk : u ≠ k := by
      intro he
      exact h (by simp [he])
    have hbeq : (u == k) = false := beq_eq_false_iff_ne.mpr hk
    rw [List.cons_append]
    simp only [List.lookup, hbeq]
    exact ih (fun hm => h (by simp [hm]))

/-! ### Merge facts -/

theorem mergeList_eq (now : Nat) : ∀ (msgs : List NL) (acc : List (String × NL)),
    (∀ m ∈ msgs, m.data.uuid ∉ acc.map Prod.fst) →
    (msgs.map (fun m => m.data.uuid)).Nodup →
    mergeList now acc msgs = acc ++ msgs.map (fun m => (m.data.uuid, stampNL now m)) := by
  intro msgs
  induction msgs with
  | nil =>
    intro acc _ _
    simp [mergeList]
  | cons x msgs ih =>
    intro acc habs hnd
    have hx : x.data.uuid ∉ acc.map Prod.fst := habs x (by simp)
    rw [mergeList, if_neg hx]
    rw [List.map_cons, List.nodup_cons] at hnd
    have hside : ∀ m ∈ msgs,
        m.data.uuid ∉ (acc ++ [(x.data.uuid, stampNL now x)]).map Prod.fst := by
      intro m hm
      rw [List.map_append]
      intro hmem
      rcases List.mem_append.mp hmem with h0 | h0
      · exact habs m (by simp [hm]) h0
      · have he : m.data.uuid = x.data.uuid := by simpa using h0
        exact hnd.1 (he ▸ List.mem_map.mpr ⟨m, hm, rfl⟩)
    rw [ih (acc ++ [(x.data.uuid, stampNL now x)]) hside hnd.2]
    simp

theorem mergeList_lookup_present (now : Nat) : ∀ (msgs : List NL)
    (acc : List (String × NL)) (u : String), u ∈ acc.map Prod.fst →
    (mergeList now acc msgs).lookup u = acc.lookup u := by
  intro msgs
  induction msgs with
  | nil =>
    intro acc u _
    rfl
  | cons x msgs ih =>
    intro acc u hu
    rw [mergeList]
    by_cases hx : x.data.uuid ∈ acc.map Prod.fst
    · rw [if_pos hx]
      exact ih acc u hu
    · rw [if_neg hx]
      have hmem' : u ∈ (acc ++ [(x.data.uuid, stampNL now x)]).map Prod.fst := by
        rw [List.map_append]
        exact List.mem_append_left _ hu
      rw [ih (acc ++ [(x.data.uuid, stampNL now x)]) u hmem']
      exact lookup_append_left _ _ u hu

theorem mergeList_lookup_absent (now : Nat) : ∀ (msgs : List NL)
    (acc : List (String × NL)) (u : String) (m : NL), u ∉ acc.map Prod.fst →
    msgs.find? (fun x => x.data.uuid == u) = some m →
    (mergeList now acc msgs).lookup u = some (stampNL now m) := by
  intro msgs
  induction msgs with
  | nil =>
    intro acc u m _ hfind
    simp at hfind
  | cons x msgs ih =>
    intro acc u m hu hfind
    rw [mergeList]
    by_cases hx : x.data.uuid = u
    · have hm : m = x := by
        rw [List.find?_cons_of_pos _ (by simp [hx])] at hfind
        simpa using hfind.symm
      subst hm
      rw [if_neg (hx ▸ hu)]
      have hmem' : u ∈ (acc ++ [(m.data.uuid, stampNL now m)]).map Prod.fst := by
        rw [List.map_append]
        exact List.mem_append_right _ (by simp [hx])
      rw [mergeList_lookup_present now msgs (acc ++ [(m.data.uuid, stampNL now m)]) u hmem']
      rw [hx]
      exact lookup_append_missing acc (stampNL now m) u hu
    · rw [List.find?_cons_of_neg _ (by simp [hx])] at hfind
      by_cases hlx : x.data.uuid ∈ acc.map Prod.fst
      · rw [if_pos hlx]
        exact ih acc u m hu hfind
      · rw [if_neg hlx]
        have hside : u ∉ (acc ++ [(x.data.uuid, stampNL now x)]).map Prod.fst := by
          rw [List.map_append]
          intro hmem
          rcases List.mem_append.mp hmem with h0 | h0
          · exact hu h0
          · have he : u = x.data.uuid := by simpa using h0
            exact hx he.symm
        exact ih (acc ++ [(x.data.uuid, stampNL now x)]) u m hside hfind

/-- Well-formedness of a Go listener table: each entry is keyed by its
listener's UUID (l.m[nl.UUID()] = nl). -/
def ListWF (l : Listeners) : Prop := ∀ p ∈ l.m, p.2.data.uuid = p.1

theorem notifsUnmarshal_eq (n : Notifs) (t : JsonNotifs) (now : Nat) :
    notifsUnmarshal n t now =
      ⟨n.nls.merge (t.running.map unmarshalNLMsg) now,
       n.fin.merge (t.finished.map unmarshalNLMsg) now, n.smapVer⟩ := by
  obtain ⟨running, finished⟩ := t
  obtain ⟨nls, fin, ver⟩ := n
  cases running with
  | nil =>
    cases finished with
    | nil => simp [notifsUnmarshal, Listeners.merge, mergeList]
    | cons f fs => simp [notifsUnmarshal, Listeners.merge, mergeList, Nat.succ_pos]
  | cons r rs =>
    cases finished with
    | nil => simp [notifsUnmarshal, Listeners.merge, mergeList, Nat.succ_pos]
    | cons f fs =>
      simp [notifsUnmarshal, Listeners.merge, mergeList, Nat.succ_pos]
      rw [if_pos (Nat.succ_pos rs.length)]

theorem roundtrip_table (now : Nat) (l : Listeners)
    (hnd : (tableKeys l).Nodup) (hwf : ListWF l) :
    mergeList now [] (l.m.map (fun p => unmarshalNLMsg (newNLMsg p.2))) =
      l.m.map (fun p => (p.1,
        (⟨variantOfKind p.2.data.kind, { p.2.data with addedTime := now }⟩ : NL))) := by
  have habs : ∀ m ∈ l.m.map (fun p => unmarshalNLMsg (newNLMsg p.2)),
      m.data.uuid ∉ ([] : List (String × NL)).map Prod.fst := by
    simp
  have hnd' : ((l.m.map (fun p => unmarshalNLMsg (newNLMsg p.2))).map
      (fun m => m.data.uuid)).Nodup := by
    rw [List.map_map]
    rw [show ((fun m => NLData.uuid (NL.data m)) ∘
        (fun p => unmarshalNLMsg (newNLMsg p.2))) =
      (fun (p : String × NL) => p.2.data.uuid) from rfl]
    rw [List.map_congr_left (fun p hp => hwf p hp)]
    exact hnd
  rw [mergeList_eq now _ [] habs hnd', List.nil_append, List.map_map]
  refine List.map_congr_left ?_
  intro p hp
  have h1 : (unmarshalNLMsg (newNLMsg p.2)).data.uuid = p.1 := by
    rw [show (unmarshalNLMsg (newNLMsg p.2)).data.uuid = p.2.data.uuid from rfl, hwf p hp]
  show ((unmarshalNLMsg (newNLMsg p.2)).data.uuid, stampNL now (unmarshalNLMsg (newNLMsg p.2))) =
    (p.1, (⟨variantOfKind p.2.data.kind, { p.2.data with addedTime := now }⟩ : NL))
  exact congrArg₂ Prod.mk h1 rfl

/-! ## C8: serialize / deserialize round trip and merge semantics -/

/-- C8: deserializing the serialized listener tables into an empty fabric
reproduces both tables entry for entry: same uuids, same kinds, the variant
reconstructed from the kind tag, and added-times refreshed to the merge
time.  Moreover merge drops an incoming listener whose uuid is present and
inserts an absent one (its first envelope occurrence) with added-time set
to now. -/
theorem c8_marshal_unmarshal_roundtrip (n : Notifs) (now : Nat)
    (hnd1 : (tableKeys n.nls).Nodup) (hnd2 : (tableKeys n.fin).Nodup)
    (hwf1 : ListWF n.nls) (hwf2 : ListWF n.fin) :
    ((notifsUnmarshal ⟨⟨[]⟩, ⟨[]⟩, 0⟩ (notifsMarshal n) now).nls.m =
        n.nls.m.map (fun p => (p.1,
          (⟨variantOfKind p.2.data.kind, { p.2.data with addedTime := now }⟩ : NL))) ∧
      (notifsUnmarshal ⟨⟨[]⟩, ⟨[]⟩, 0⟩ (notifsMarshal n) now).fin.m =
        n.fin.m.map (fun p => (p.1,
          (⟨variantOfKind p.2.data.kind, { p.2.data with addedTime := now }⟩ : NL)))) ∧
    (∀ (l : Listeners) (msgs : List NL) (u : String), u ∈ tableKeys l →
      (l.merge msgs now).m.lookup u = l.m.lookup u) ∧
    (∀ (l : Listeners) (msgs : List NL) (u : String) (m : NL), u ∉ tableKeys l →
      msgs.find? (fun x => x.data.uuid == u) = some m →
      (l.merge msgs now).m.lookup u = some (stampNL now m)) := by
  refine ⟨⟨?_, ?_⟩, ?_, ?_⟩
  · rw [notifsUnmarshal_eq]
    show mergeList now [] ((n.nls.m.map (fun p => newNLMsg p.2)).map unmarshalNLMsg) = _
    rw [List.map_map]
    exact roundtrip_table now n.nls hnd1 hwf1
  · rw [notifsUnmarshal_eq]
    show mergeList now [] ((n.fin.m.map (fun p => newNLMsg p.2)).map unmarshalNLMsg) = _
    rw [List.map_map]
    exact roundtrip_table now n.fin hnd2 hwf2
  · intro l msgs u hu
    exact mergeList_lookup_present now msgs l.m u hu
  · intro l msgs u m hu hfind
    exact mergeList_lookup_absent now msgs l.m u m hu hfind

/-- Witness for C8 at a concrete two-listener fabric. -/
theorem c8_witness :
    let nlA : NL := ⟨.downloadListener, ⟨"u1", "download_single", ["t1"], [], false, none, 3, 0⟩⟩
    let nlB : NL := ⟨.xactListener, ⟨"u2", "rebalance", ["t1"], ["t1"], false, none, 4, 9⟩⟩
    let n : Notifs := ⟨⟨[("u1", nlA)]⟩, ⟨[("u2", nlB)]⟩, 5⟩
    ((notifsUnmarshal ⟨⟨[]⟩, ⟨[]⟩, 0⟩ (notifsMarshal n) 7).nls.m =
        n.nls.m.map (fun p => (p.1,
          (⟨variantOfKind p.2.data.kind, { p.2.data with addedTime := 7 }⟩ : NL))) ∧
      (notifsUnmarshal ⟨⟨[]⟩, ⟨[]⟩, 0⟩ (notifsMarshal n) 7).fin.m =
        n.fin.m.map (fun p => (p.1,
          (⟨variantOfKind p.2.data.kind, { p.2.data with addedTime := 7 }⟩ : NL)))) ∧
    (∀ (l : Listeners) (msgs : List NL) (u : String), u ∈ tableKeys l →
      (l.merge msgs 7).m.lookup u = l.m.lookup u) ∧
    (∀ (l : Listeners) (msgs : List NL) (u : String) (m : NL), u ∉ tableKeys l →
      msgs.find? (fun x => x.data.uuid == u) = some m →
      (l.merge msgs 7).m.lookup u = some (stampNL 7 m)) := by
  intro nlA nlB n
  exact c8_marshal_unmarshal_roundtrip n 7 (by decide) (by decide)
    (by unfold ListWF; decide) (by unfold ListWF; decide)

/-! ### The notifs operations (table-state effects) -/

/-- notifs.add: idempotent insertion into running; a freshly inserted
listener gets its added time stamped (nl.SetAddedTime() right after
nls.add, mutating the stored listener). -/
def notifsAdd (n : Notifs) (nl : NL) (now : Nat) : Notifs :=
  if nl.data.uuid ∈ tableKeys n.nls then n
  else { n with nls := ⟨n.nls.m ++ [(nl.data.uuid, stampNL now nl)]⟩ }

/-- notifs.done: remove the listener from running and insert it into
finished; when it is already gone from running, do nothing (the abort
broadcast and the completion callback are network effects outside the
tables). -/
def notifsDone (n : Notifs) (nl : NL) : Notifs :=
  match n.nls.del nl with
  | (_, false) => n
  | (nls', true) => { n with nls := nls', fin := (n.fin.add nl).1 }

/-- notifs.entry: look the uuid up in running first, then in finished;
the flag records which table held it. -/
def notifsEntry (n : Notifs) (uuid : String) : Option (NL × Bool) :=
  match n.nls.m.lookup uuid with
  | some nl => some (nl, true)
  | none =>
    match n.fin.m.lookup uuid with
    | some nl => some (nl, false)
    | none => none

/-- notifs.markFinished: record the notifier as finished; on abort set the
aborted flag, synthesizing the aborted-error detail when the sender
supplied no error; record the error; done when every notifier finished or
the listener aborted.  (The listener-side setters live in the nl package
outside src/; modelled from the spec.) -/
def markFinished (nl : NL) (tid : String) (srcErr : Option String)
    (aborted : Bool) : NL × Bool :=
  let nl1 := nl.markFinishedNode tid
  let srcErrA := if aborted && srcErr.isNone then
      some ("aborted: " ++ nl.data.kind) else srcErr
  let nl2 := if aborted then { nl1 with data := { nl1.data with aborted := true } }
    else nl1
  let nl3 := match srcErrA with
    | some e => { nl2 with data := { nl2.data with errMsg := some e } }
    | none => nl2
  (nl3, nl3.allFinished || aborted)

/-- The table-state transition of the finished-notification ingress
(notifs.handler for POST /notifs/finished, then handleFinished): unknown
uuid, unknown notifier and duplicate finish are benign no-ops; otherwise
the listener is updated in place and, when done, moved running -> finished
via notifs.done. -/
def handleFinished (n : Notifs) (uuid tid : String) (srcErr : Option String)
    (aborted : Bool) : Notifs :=
  match notifsEntry n uuid with
  | none => n
  | some (nl, inRunning) =>
    if tid ∉ nl.data.notifiers then n
    else if tid ∈ nl.data.finishedNodes then n
    else if (markFinished nl tid srcErr aborted).2 then
      notifsDone
        (if inRunning then
          { n with nls := n.nls.update uuid (markFinished nl tid srcErr aborted).1 }
         else { n with fin := n.fin.update uuid (markFinished nl tid srcErr aborted).1 })
        (markFinished nl tid srcErr aborted).1
    else if inRunning then
      { n with nls := n.nls.update uuid (markFinished nl tid srcErr aborted).1 }
    else { n with fin := n.fin.update uuid (markFinished nl tid srcErr aborted).1 }

/-- notifsHousekeepT = 2 minutes (in nanoseconds); eviction multiplier 3. -/
def notifsHousekeepT : Nat := 120000000000

def notifsRemoveMult : Nat := 3

/-- The eviction pass of notifs.housekeep: drop finished listeners whose
end time is older than notifsRemoveMult * notifsHousekeepT.  (The stats
pull of the second phase reaches the tables only through notifs.done.) -/
def housekeepEvict (n : Notifs) (now : Nat) : Notifs :=
  { n with fin := ⟨n.fin.m.filter
      (fun p => !(decide (notifsRemoveMult * notifsHousekeepT < now - p.2.data.endTime)))⟩ }

/-- A cluster-map view for the change listener: version and per-node
liveness (GetNode(id) != nil and not InMaintenance). -/
structure SmapView where
  version : Nat
  alive : String → Bool

/-- notifs.ListenSmapChanged's table effect: on a strictly newer cluster-map
version, every running listener with a vanished or in-maintenance notifier
is marked aborted with a node-not-found error, added to finished, and
removed from running.  ActiveNotifiers is modelled from the spec as the
listener's notifier set (the nl package is not under src/). -/
def listenSmapChanged (n : Notifs) (clusterStarted : Bool) (smap : SmapView) : Notifs :=
  if !clusterStarted then n
  else if smap.version ≤ n.smapVer then n
  else if n.nls.m.isEmpty then { n with smapVer := smap.version }
  else
    if (n.nls.m.filter
        (fun p => p.2.data.notifiers.any (fun id => !smap.alive id))).isEmpty then
      { n with smapVer := smap.version }
    else
      { nls := ⟨n.nls.m.filter (fun p => !(decide (p.1 ∈
          (n.nls.m.filter (fun p => p.2.data.notifiers.any (fun id => !smap.alive id))).map
            Prod.fst)))⟩,
        fin := ((n.nls.m.filter
            (fun p => p.2.data.notifiers.any (fun id => !smap.alive id))).map
          (fun p => (p.1, ({ p.2 with data := { p.2.data with
              aborted := true,
              errMsg := some ("stop waiting: node not found for " ++ p.1) } } : NL)))).foldl
          (fun acc p => (acc.add p.2).1) n.fin,
        smapVer := smap.version }

/-! ### Key-set lemmas for the invariant -/

/-- The running-xor-finished invariant (the "never in both" half; a tracked
listener is by definition in one of the tables). -/
def NotifsInv (n : Notifs) : Prop :=
  ∀ u, u ∈ tableKeys n.nls → u ∉ tableKeys n.fin

theorem tableKeys_add (l : Listeners) (nl : NL) (u : String)
    (h : u ∈ tableKeys (l.add nl).1) : u ∈ tableKeys l ∨ u = nl.data.uuid := by
  unfold Listeners.add at h
  by_cases hx : nl.data.uuid ∈ tableKeys l
  · rw [if_pos hx] at h
    exact Or.inl h
  · rw [if_neg hx] at h
    simp only [tableKeys, List.map_append] at h
    rcases List.mem_append.mp h with h0 | h0
    · exact Or.inl h0
    · exact Or.inr (by simpa using h0)

theorem tableKeys_del (l : Listeners) (nl : NL) (u : String)
    (h : u ∈ tableKeys ((l.del nl).1)) :
    u ∈ tableKeys l ∧ ((l.del nl).2 = true → u ≠ nl.data.uuid) := by
  unfold Listeners.del at *
  by_cases hx : nl.data.uuid ∈ tableKeys l
  · rw [if_pos hx] at h ⊢
    simp only [tableKeys] at h
    obtain ⟨p, hp, hpu⟩ := List.mem_map.mp h
    have hpf := List.mem_filter.mp hp
    refine ⟨List.mem_map.mpr ⟨p, hpf.1, hpu⟩, fun _ he => ?_⟩
    have : (p.1 == nl.data.uuid) = false := by
      cases hb : p.1 == nl.data.uuid
      · rfl
      · rw [hb] at hpf
        simp at hpf
    rw [← hpu] at he
    rw [he] at this
    simp at this
  · rw [if_neg hx] at h ⊢
    exact ⟨h, fun hf => by simp at hf⟩

theorem tableKeys_update (l : Listeners) (uuid : String) (nl : NL) :
    tableKeys (l.update uuid nl) = tableKeys l := by
  unfold Listeners.update tableKeys
  rw [List.map_map]
  refine List.map_congr_left ?_
  intro p _
  by_cases h : (p.1 == uuid) = true
  · simp [Function.comp, h]
  · simp [Function.comp, h]

theorem tableKeys_filter_sub (ml : List (String × NL)) (f : String × NL → Bool)
    (u : String) (h : u ∈ (ml.filter f).map Prod.fst) : u ∈ ml.map Prod.fst := by
  obtain ⟨p, hp, hpu⟩ := List.mem_map.mp h
  exact List.mem_map.mpr ⟨p, List.mem_of_mem_filter hp, hpu⟩

theorem tableKeys_foldl_add (ps : List (String × NL)) : ∀ (l : Listeners) (u : String),
    u ∈ tableKeys (ps.foldl (fun acc p => (acc.add p.2).1) l) →
    u ∈ tableKeys l ∨ u ∈ ps.map (fun p => p.2.data.uuid) := by
  induction ps with
  | nil =>
    intro l u h
    exact Or.inl h
  | cons q ps ih =>
    intro l u h
    rw [List.foldl_cons] at h
    rcases ih ((l.add q.2).1) u h with h0 | h0
    · rcases tableKeys_add l q.2 u h0 with h1 | h1
      · exact Or.inl h1
      · exact Or.inr (by simp [h1])
    · exact Or.inr (by simp [h0])

theorem mergeList_keys_sub (now : Nat) : ∀ (msgs : List NL)
    (acc : List (String × NL)) (u : String),
    u ∈ (mergeList now acc msgs).map Prod.fst →
    u ∈ acc.map Prod.fst ∨ u ∈ msgs.map (fun m => m.data.uuid) := by
  intro msgs
  induction msgs with
  | nil =>
    intro acc u h
    exact Or.inl h
  | cons x msgs ih =>
    intro acc u h
    rw [mergeList] at h
    by_cases hx : x.data.uuid ∈ acc.map Prod.fst
    · rw [if_pos hx] at h
      rcases ih acc u h with h0 | h0
      · exact Or.inl h0
      · exact Or.inr (by simp [h0])
    · rw [if_neg hx] at h
      rcases ih (acc ++ [(x.data.uuid, stampNL now x)]) u h with h0 | h0
      · rw [List.map_append] at h0
        rcases List.mem_append.mp h0 with h1 | h1
        · exact Or.inl h1
        · exact Or.inr (by simp [(by simpa using h1 : u = x.data.uuid)])
      · exact Or.inr (by simp [h0])

/-! ### Invariant preservation, operation by operation -/

theorem inv_notifsAdd (n : Notifs) (nl : NL) (now : Nat) (hinv : NotifsInv n)
    (hfr : nl.data.uuid ∉ tableKeys n.fin) : NotifsInv (notifsAdd n nl now) := by
  unfold notifsAdd
  by_cases hx : nl.data.uuid ∈ tableKeys n.nls
  · rw [if_pos hx]
    exact hinv
  · rw [if_neg hx]
    intro u hu hufin
    simp only [tableKeys, List.map_append] at hu
    rcases List.mem_append.mp hu with h0 | h0
    · exact hinv u h0 hufin
    · have he : u = nl.data.uuid := by simpa using h0
      rw [he] at hufin
      exact hfr hufin

theorem inv_notifsDone (n : Notifs) (nl : NL) (hinv : NotifsInv n) :
    NotifsInv (notifsDone n nl) := by
  unfold notifsDone
  split
  · exact hinv
  · rename_i nls' hdel
    intro u hu hufin
    have h1 := tableKeys_del n.nls nl u (by rw [hdel]; exact hu)
    have hflag : (n.nls.del nl).2 = true := by rw [hdel]
    rcases tableKeys_add n.fin nl u hufin with h2 | h2
    · exact hinv u h1.1 h2
    · exact (h1.2 hflag) h2

theorem inv_update_nls (n : Notifs) (uuid : String) (nl : NL) (hinv : NotifsInv n) :
    NotifsInv { n with nls := n.nls.update uuid nl } := by
  intro u hu hufin
  have hu' : u ∈ tableKeys (n.nls.update uuid nl) := hu
  rw [tableKeys_update] at hu'
  exact hinv u hu' hufin

theorem inv_update_fin (n : Notifs) (uuid : String) (nl : NL) (hinv : NotifsInv n) :
    NotifsInv { n with fin := n.fin.update uuid nl } := by
  intro u hu hufin
  have hf' : u ∈ tableKeys (n.fin.update uuid nl) := hufin
  rw [tableKeys_update] at hf'
  exact hinv u hu hf'

theorem inv_handleFinished (n : Notifs) (uuid tid : String) (srcErr : Option String)
    (aborted : Bool) (hinv : NotifsInv n) :
    NotifsInv (handleFinished n uuid tid srcErr aborted) := by
  unfold handleFinished
  split
  · exact hinv
  · split
    · exact hinv
    · split
      · exact hinv
      · split
        · split
          · exact inv_notifsDone _ _ (inv_update_nls n uuid _ hinv)
          · exact inv_notifsDone _ _ (inv_update_fin n uuid _ hinv)
        · split
          · exact inv_update_nls n uuid _ hinv
          · exact inv_update_fin n uuid _ hinv

theorem inv_housekeepEvict (n : Notifs) (now : Nat) (hinv : NotifsInv n) :
    NotifsInv (housekeepEvict n now) := by
  intro u hu hufin
  exact hinv u hu (tableKeys_filter_sub n.fin.m _ u hufin)

theorem inv_listenSmapChanged (n : Notifs) (clusterStarted : Bool) (smap : SmapView)
    (hinv : NotifsInv n) (hwf : ListWF n.nls) :
    NotifsInv (listenSmapChanged n clusterStarted smap) := by
  unfold listenSmapChanged
  by_cases h1 : (!clusterStarted) = true
  · rw [if_pos h1]
    exact hinv
  · rw [if_neg h1]
    by_cases h2 : smap.version ≤ n.smapVer
    · rw [if_pos h2]
      exact hinv
    · rw [if_neg h2]
      by_cases h3 : n.nls.m.isEmpty = true
      · rw [if_pos h3]
        exact hinv
      · rw [if_neg h3]
        by_cases h4 : (n.nls.m.filter
            (fun p => p.2.data.notifiers.any (fun id => !smap.alive id))).isEmpty = true
        · rw [if_pos h4]
          exact hinv
        · rw [if_neg h4]
          intro u hu hufin
          simp only [tableKeys] at hu
          obtain ⟨p, hp, hpu⟩ := List.mem_map.mp hu
          have hpf := List.mem_filter.mp hp
          have hukeep : ¬ (u ∈ (n.nls.m.filter
              (fun p => p.2.data.notifiers.any (fun id => !smap.alive id))).map
                Prod.fst) := by
            have := hpf.2
            rw [hpu] at this
            simpa using this
          rcases tableKeys_foldl_add _ _ u hufin with h5 | h5
          · exact hinv u (List.mem_map.mpr ⟨p, hpf.1, hpu⟩) h5
          · obtain ⟨q', hq', hq'u⟩ := List.mem_map.mp h5
            obtain ⟨q, hq, rfl⟩ := List.mem_map.mp hq'
            have hqu : q.2.data.uuid = u := hq'u
            have hq2 : q ∈ n.nls.m := List.mem_of_mem_filter hq
            rw [hwf q hq2] at hqu
            exact hukeep (by rw [← hqu]; exact List.mem_map.mpr ⟨q, hq, rfl⟩)

theorem inv_notifsUnmarshal (n : Notifs) (env : JsonNotifs) (now : Nat)
    (hinv : NotifsInv n)
    (hrun : ∀ u ∈ env.running.map (fun m => m.nl.uuid), u ∉ tableKeys n.fin)
    (hfin : ∀ u ∈ env.finished.map (fun m => m.nl.uuid),
      u ∉ tableKeys n.nls ∧ u ∉ env.running.map (fun m => m.nl.uuid)) :
    NotifsInv (notifsUnmarshal n env now) := by
  rw [notifsUnmarshal_eq]
  intro u hu hufin
  have hu' : u ∈ (mergeList now n.nls.m (env.running.map unmarshalNLMsg)).map Prod.fst :=
    hu
  have hf' : u ∈ (mergeList now n.fin.m (env.finished.map unmarshalNLMsg)).map Prod.fst :=
    hufin
  have hrunmap : (env.running.map unmarshalNLMsg).map (fun m => m.data.uuid) =
      env.running.map (fun m => m.nl.uuid) := by
    rw [List.map_map]
    rfl
  have hfinmap : (env.finished.map unmarshalNLMsg).map (fun m => m.data.uuid) =
      env.finished.map (fun m => m.nl.uuid) := by
    rw [List.map_map]
    rfl
  rcases mergeList_keys_sub now _ _ u hu' with h1 | h1
  · rcases mergeList_keys_sub now _ _ u hf' with h2 | h2
    · exact hinv u h1 h2
    · rw [hfinmap] at h2
      exact (hfin u h2).1 h1
  · rw [hrunmap] at h1
    rcases mergeList_keys_sub now _ _ u hf' with h2 | h2
    · exact hrun u h1 h2
    · rw [hfinmap] at h2
      exact (hfin u h2).2 h1

/-- C9: each notification-fabric operation preserves the running-xor-finished
invariant (no uuid in both tables): add, the finished-notification handler,
housekeeping eviction, the cluster-map change listener, and unmarshal/merge.
For add and for merge the preservation needs a cross-table freshness
hypothesis — neither operation checks the other table, so an incoming uuid
already present in finished lands in both tables (see the counterexample). -/
theorem c9_listener_in_one_table (n : Notifs) (hinv : NotifsInv n)
    (hwf : ListWF n.nls) :
    (∀ nl now, nl.data.uuid ∉ tableKeys n.fin → NotifsInv (notifsAdd n nl now)) ∧
    (∀ uuid tid srcErr aborted, NotifsInv (handleFinished n uuid tid srcErr aborted)) ∧
    (∀ now, NotifsInv (housekeepEvict n now)) ∧
    (∀ clusterStarted smap, NotifsInv (listenSmapChanged n clusterStarted smap)) ∧
    (∀ env now,
      (∀ u ∈ env.running.map (fun m => m.nl.uuid), u ∉ tableKeys n.fin) →
      (∀ u ∈ env.finished.map (fun m => m.nl.uuid),
        u ∉ tableKeys n.nls ∧ u ∉ env.running.map (fun m => m.nl.uuid)) →
      NotifsInv (notifsUnmarshal n env now)) :=
  ⟨fun nl now hfr => inv_notifsAdd n nl now hinv hfr,
   fun uuid tid srcErr aborted => inv_handleFinished n uuid tid srcErr aborted hinv,
   fun now => inv_housekeepEvict n now hinv,
   fun clusterStarted smap => inv_listenSmapChanged n clusterStarted smap hinv hwf,
   fun env now hrun hfin => inv_notifsUnmarshal n env now hinv hrun hfin⟩

/-- C9 counterexample to the claim as stated: merge (notifs.UnmarshalJSON)
never consults the finished table, so deserializing a running listener whose
uuid is already finished puts "u" in both tables, starting from a state
satisfying the invariant. -/
theorem c9_counterexample :
    NotifsInv (⟨⟨[]⟩,
      ⟨[("u", (⟨.xactListener, ⟨"u", "rebalance", ["t1"], ["t1"], false, none, 1, 2⟩⟩ :
        NL))]⟩, 0⟩ : Notifs) ∧
    "u" ∈ tableKeys (notifsUnmarshal
      (⟨⟨[]⟩,
        ⟨[("u", (⟨.xactListener, ⟨"u", "rebalance", ["t1"], ["t1"], false, none, 1, 2⟩⟩ :
          NL))]⟩, 0⟩ : Notifs)
      ⟨[⟨"rebalance", ⟨"u", "rebalance", ["t1"], ["t1"], false, none, 1, 2⟩⟩], []⟩ 5).nls ∧
    "u" ∈ tableKeys (notifsUnmarshal
      (⟨⟨[]⟩,
        ⟨[("u", (⟨.xactListener, ⟨"u", "rebalance", ["t1"], ["t1"], false, none, 1, 2⟩⟩ :
          NL))]⟩, 0⟩ : Notifs)
      ⟨[⟨"rebalance", ⟨"u", "rebalance", ["t1"], ["t1"], false, none, 1, 2⟩⟩], []⟩ 5).fin :=
  ⟨by
    intro u hu hf
    simp [tableKeys] at hu,
   by decide, by decide⟩

/-- C9 witness: the amended preservation theorem applied at a concrete
two-table state and a fresh listener. -/
theorem c9_witness :
    NotifsInv (notifsAdd
      (⟨⟨[("a", (⟨.xactListener, ⟨"a", "rebalance", ["t1"], [], false, none, 0, 0⟩⟩ :
          NL))]⟩,
        ⟨[("b", (⟨.downloadListener,
          ⟨"b", "download_single", ["t1"], ["t1"], false, none, 0, 0⟩⟩ : NL))]⟩,
        3⟩ : Notifs)
      (⟨.queryListener, ⟨"c", "query_objects", ["t2"], [], false, none, 0, 0⟩⟩ : NL) 7) :=
  (c9_listener_in_one_table _
    (by
      intro u hu hf
      simp [tableKeys] at hu hf
      rw [hu] at hf
      exact absurd hf (by decide))
    (by unfold ListWF; decide)).1
    (⟨.queryListener, ⟨"c", "query_objects", ["t2"], [], false, none, 0, 0⟩⟩ : NL) 7
    (by decide)

end AIStore
